import Mathlib

/-!
Verification of the YouTube comment-analysis pipeline.

The definitions below form a shallow embedding of the pipeline implemented in
`src/function/src/app.py` (with the key-recasing helper shared with
`src/lambda_code/src/data_processing.py`):  comment normalization
(`format_comment`), paginated retrieval (`retrieve_comments_from_youtube`),
batched sentiment enrichment (`batch_detect_sentiment`), the newline-delimited
JSON object store (`upload_comments_to_s3`, `retrieve_comments_from_s3`,
`remove_comments_from_s3`) and the handler's event parsing and REMOVE path.

Python dictionaries are embedded as insertion-ordered association lists with
string keys; JSON values are embedded as the inductive `JVal` (numbers are
restricted to integers: floating point is outside the scope of the embedding).
All character-level reasoning is over Unicode scalar values, with the ASCII
ranges treated exactly as Python's regex classes `[A-Z]`, `[a-z]`, `\d` and
`str.lower` treat them on the keys the pipeline handles.
-/

namespace YCA

/-- A JSON-like value.  Mirrors the values flowing through the pipeline's
dictionaries; numbers are embedded as integers (the pipeline's own derived
fields are strings, integers and booleans). -/
inductive JVal where
  | null : JVal
  | bool (b : Bool) : JVal
  | int (n : Int) : JVal
  | str (s : String) : JVal
  | arr (xs : List JVal) : JVal
  | obj (fs : List (String × JVal)) : JVal

/-- A Python dict with string keys, embedded as an insertion-ordered
association list. -/
abbrev Dict := List (String × JVal)

/-- Python dict assignment `d[k] = v`: if the key is present its value is
updated in place (the key keeps its position), otherwise the pair is appended. -/
def dset (d : Dict) (k : String) (v : JVal) : Dict :=
  if d.any (fun kv => kv.1 == k) then
    d.map (fun kv => if kv.1 == k then (k, v) else kv)
  else d ++ [(k, v)]

/-- Python `d.get(k)` / `d[k]` lookup (first — hence unique — occurrence). -/
def dget (d : Dict) (k : String) : Option JVal :=
  (d.find? (fun kv => kv.1 == k)).map (fun kv => kv.2)

/-- Build a dict by successive assignments, as `{**d, **pairs}` does. -/
def dextend (d : Dict) (pairs : Dict) : Dict :=
  pairs.foldl (fun acc kv => dset acc kv.1 kv.2) d

/-- The keys of a dict, in insertion order. -/
def dkeys (d : Dict) : List String :=
  d.map (fun kv => kv.1)

/-! ### The key-recasing function

`inflection.underscore` (used on every snippet key by `format_comment` and by
`underscore_keys` in `data_processing.py`) is

    word = re.sub(r"([A-Z]+)([A-Z][a-z])", r"\1_\2", word)
    word = re.sub(r"([a-z\d])([A-Z])", r"\1_\2", word)
    word = word.replace("-", "_")
    return word.lower()

Both substitutions insert `_` between two adjacent characters of the original
word and never rescan inserted text, so each pass is the local transform coded
below: the first fires between two uppercase letters followed by a lowercase
letter (the tail of a capital run), the second between a lowercase letter or
digit and an uppercase letter.  Matches of either regex can never overlap, so
the left-to-right scan equals this pairwise description. -/

/-- First pass of `inflection.underscore`:
`re.sub(r"([A-Z]+)([A-Z][a-z])", r"\1_\2", word)`. -/
def capRunSplit : List Char → List Char
  | c1 :: c2 :: c3 :: cs =>
      if c1.isUpper && c2.isUpper && c3.isLower then
        c1 :: '_' :: capRunSplit (c2 :: c3 :: cs)
      else
        c1 :: capRunSplit (c2 :: c3 :: cs)
  | cs => cs

/-- Second pass of `inflection.underscore`:
`re.sub(r"([a-z\d])([A-Z])", r"\1_\2", word)`. -/
def lowerCapSplit : List Char → List Char
  | c1 :: c2 :: cs =>
      if (c1.isLower || c1.isDigit) && c2.isUpper then
        c1 :: '_' :: lowerCapSplit (c2 :: cs)
      else
        c1 :: lowerCapSplit (c2 :: cs)
  | cs => cs

/-- `word.replace("-", "_")`, per character. -/
def dashToUnderscore (c : Char) : Char :=
  if c = '-' then '_' else c

/-- `inflection.underscore`. -/
def underscore (w : String) : String :=
  ⟨((lowerCapSplit (capRunSplit w.data)).map dashToUnderscore).map Char.toLower⟩

/-- The insertion step of the spec's transform: an underscore goes in front of
every uppercase letter of the tail of the key. -/
def specIns (cs : List Char) : List Char :=
  cs.flatMap (fun d => if d.isUpper then ['_', d] else [d])

/-- Modelled from the spec: "insert `_` before each uppercase letter (except
the first character) and lowercase the whole key" — the spec's description of
the re-keying transform, stated for comparison with `underscore`. -/
def specRekey (w : String) : String :=
  match w.data with
  | [] => ""
  | c :: cs => ⟨(c :: specIns cs).map Char.toLower⟩

/-- Keys on which `underscore` agrees with the spec's description: no hyphen,
and every uppercase letter other than the first character is immediately
preceded by a lowercase letter or a digit.  All ordinary camelCase and
PascalCase keys (such as the upstream snippet keys) satisfy this. -/
def camelKey : List Char → Bool
  | [] => true
  | [c] => c != '-'
  | c1 :: c2 :: cs =>
      c1 != '-' && (!c2.isUpper || (c1.isLower || c1.isDigit)) && camelKey (c2 :: cs)

/-! ### Raw upstream data and comment normalization -/

/-- One raw comment resource, with the fields the code accesses:
`comment_data["id"]`, `comment_data["snippet"]` (iterated generically) and
`comment_data.get("parentId", "none")`. -/
structure RawComment where
  id : String
  snippet : Dict
  parentId : Option String

/-- One comment-thread item: `item["snippet"]["topLevelComment"]`, and
`item["replies"]["comments"]` when `"replies" in item`. -/
structure RawItem where
  topLevelComment : RawComment
  replies : Option (List RawComment)

/-- One upstream page: `response_data["items"]` and
`response_data.get("nextPageToken")`. -/
structure Page where
  items : List RawItem
  nextPageToken : Option String

/-- `comment_data["snippet"].get("authorChannelId", {}).get("value", "none")`;
the second `.get` raises `AttributeError` when a present value is not a
mapping. -/
def authorChannelValue (snippet : Dict) : Except String JVal :=
  match dget snippet "authorChannelId" with
  | none => .ok (.str "none")
  | some (.obj m) => .ok ((dget m "value").getD (.str "none"))
  | some _ => .error "AttributeError"

/-- `YouTubeCommentsHandler.format_comment` (src/function/src/app.py:65-90):
the dict literal re-keys the snippet to snake_case, then merges
`additional_data`, then assigns `parent_id` and `author_channel_id` last. -/
def format_comment (c : RawComment) (additional_data : Dict) : Except String Dict :=
  let snippet_snake_case := c.snippet.foldl (fun acc kv => dset acc (underscore kv.1) kv.2) []
  match authorChannelValue c.snippet with
  | .error e => .error e
  | .ok author_channel_id =>
      let data := dextend [("id", .str c.id)] snippet_snake_case
      let data := dextend data additional_data
      let data := dset data "parent_id" (.str (c.parentId.getD "none"))
      let data := dset data "author_channel_id" author_channel_id
      .ok data

/-- Sequential traversal of a Python `for` loop that may raise: apply `f` to
each element in order, aborting at the first exception. -/
def exceptMap {α β : Type} (f : α → Except String β) : List α → Except String (List β)
  | [] => .ok []
  | a :: l =>
      match f a with
      | .error e => .error e
      | .ok b =>
          match exceptMap f l with
          | .error e => .error e
          | .ok bs => .ok (b :: bs)

/-- The per-item body of `retrieve_comments_from_youtube`'s loop
(src/function/src/app.py:106-119): the top-level comment is appended first,
then each reply in source order. -/
def processItem (item : RawItem) (additional_data : Dict) : Except String (List Dict) :=
  match format_comment item.topLevelComment additional_data with
  | .error e => .error e
  | .ok top =>
      match item.replies with
      | none => .ok [top]
      | some rs =>
          match exceptMap (fun r => format_comment r additional_data) rs with
          | .error e => .error e
          | .ok reps => .ok (top :: reps)

/-- Python falsiness of `next_page_token` in `if not next_page_token`:
`None` or the empty string. -/
def tokenFalsy : Option String → Bool
  | none => true
  | some t => t == ""

/-- The `while True` pagination loop of `retrieve_comments_from_youtube`
(src/function/src/app.py:101-123), instrumented with the list of `page_token`
values passed to the fetcher.  The fuel bounds the source's unbounded loop;
`none` means the fuel ran out before a page without a continuation token. -/
def retrieveLoop (fetch : Option String → Page) (additional_data : Dict) :
    Nat → Option String → List Dict → List (Option String) →
    Option (Except String (List Dict × List (Option String)))
  | 0, _, _, _ => none
  | fuel + 1, tok, acc, calls =>
      let page := fetch tok
      match exceptMap (fun item => processItem item additional_data) page.items with
      | .error e => some (.error e)
      | .ok perItem =>
          let acc2 := acc ++ perItem.flatten
          if tokenFalsy page.nextPageToken then some (.ok (acc2, calls ++ [tok]))
          else retrieveLoop fetch additional_data fuel page.nextPageToken acc2 (calls ++ [tok])

/-- `YouTubeCommentsHandler.retrieve_comments_from_youtube`
(src/function/src/app.py:92-126). -/
def retrieve_comments_from_youtube (fetch : Option String → Page)
    (additional_data : Dict) (fuel : Nat) :
    Option (Except String (List Dict × List (Option String))) :=
  retrieveLoop fetch additional_data fuel none [] []

/-! ### Batched sentiment enrichment -/

/-- `itertools.batched(seq, n)`: contiguous chunks of `n` elements, the last
possibly shorter, never padded.  (The library raises `ValueError` for `n < 1`;
no caller passes such an `n`, and the model returns `[]` there.) -/
def batched {α : Type} : List α → Nat → List (List α)
  | [], _ => []
  | x :: xs, n =>
      if _hn : n = 0 then []
      else (x :: xs).take n :: batched ((x :: xs).drop n) n
termination_by l => l.length
decreasing_by simp [List.length_drop]; omega

/-- One entry of the scoring response's `ResultList`:
`{"Sentiment": ..., "SentimentScore": {"Positive": ..., "Negative": ...,
"Neutral": ...}}`. -/
structure SentimentResult where
  sentiment : JVal
  positive : JVal
  negative : JVal
  neutral : JVal

/-- `comment = {**batch[idx], **sentiment}` for one comment and one result. -/
def mergeSentiment (c : Dict) (r : SentimentResult) : Dict :=
  dset (dset (dset (dset c "sentiment" r.sentiment)
    "sentiment_score_positive" r.positive)
    "sentiment_score_negative" r.negative)
    "sentiment_score_neutral" r.neutral

/-- `TextList=[comment["text_display"] for comment in batch]` (a missing key
raises `KeyError`). -/
def batchTexts (batch : List Dict) : Except String (List JVal) :=
  exceptMap (fun c =>
    match dget c "text_display" with
    | some v => Except.ok v
    | none => Except.error "KeyError: text_display") batch

/-- The merge loop `for idx, sentiment in enumerate(response["ResultList"])`:
`batch[idx]` raises `IndexError` when the result list is longer than the
batch; when it is shorter, comments beyond it are silently dropped (there is
no length check in the source). -/
def mergeBatch (batch : List Dict) (results : List SentimentResult) :
    Except String (List Dict) :=
  if results.length ≤ batch.length then
    .ok (List.zipWith mergeSentiment batch results)
  else .error "IndexError: tuple index out of range"

/-- The per-batch loop of `batch_detect_sentiment`, over the batches in
order, with the scoring-service client as a function from the `TextList`
sent to the `ResultList` returned. -/
def detectBatches (svc : List JVal → List SentimentResult) :
    List (List Dict) → Except String (List Dict)
  | [] => .ok []
  | batch :: rest =>
      match batchTexts batch with
      | .error e => .error e
      | .ok texts =>
          match mergeBatch batch (svc texts) with
          | .error e => .error e
          | .ok merged =>
              match detectBatches svc rest with
              | .error e => .error e
              | .ok more => .ok (merged ++ more)

/-- `YouTubeCommentsHandler.batch_detect_sentiment`
(src/function/src/app.py:164-194): the `comments_with_sentiment` accumulator
collects the merged batches in order. -/
def batch_detect_sentiment (svc : List JVal → List SentimentResult)
    (comments : List Dict) (batch_size : Nat) : Except String (List Dict) :=
  detectBatches svc (batched comments batch_size)

/-! ### The object store and newline-delimited JSON serialization -/

/-- The S3 bucket, as a mapping from keys to string bodies. -/
abbrev Store := List (String × String)

def storeGet (s : Store) (k : String) : Option String :=
  (s.find? (fun kv => kv.1 == k)).map (fun kv => kv.2)

def storePut (s : Store) (k : String) (v : String) : Store :=
  if s.any (fun kv => kv.1 == k) then
    s.map (fun kv => if kv.1 == k then (k, v) else kv)
  else s ++ [(k, v)]

/-- `s3.delete_object`: removing an absent key succeeds (S3 semantics). -/
def storeDelete (s : Store) (k : String) : Store :=
  s.filter (fun kv => !(kv.1 == k))

/-- The deterministic object key `f"data/{video_id}.json"`. -/
def s3Key (video_id : String) : String :=
  "data/" ++ video_id ++ ".json"

/-- The opening and closing braces, as characters. -/
def lbrace : Char := Char.ofNat 123

def rbrace : Char := Char.ofNat 125

/-- A lowercase hexadecimal digit, as CPython's `\uXXXX` escapes emit. -/
def hexDigitChar (n : Nat) : Char :=
  if n < 10 then Char.ofNat (48 + n) else Char.ofNat (97 + (n - 10))

/-- Four hex digits of `n < 0x10000`, most significant first. -/
def hex4 (n : Nat) : List Char :=
  [hexDigitChar (n / 4096 % 16), hexDigitChar (n / 256 % 16),
   hexDigitChar (n / 16 % 16), hexDigitChar (n % 16)]

/-- `json.dumps` string escaping with the default `ensure_ascii=True`: short
escapes for quote, backslash and the common control characters, printable
ASCII verbatim, `\uXXXX` otherwise (a surrogate pair beyond the basic
multilingual plane). -/
def escapeChar (c : Char) : List Char :=
  if c = '"' then ['\\', '"']
  else if c = '\\' then ['\\', '\\']
  else if c = '\n' then ['\\', 'n']
  else if c = '\t' then ['\\', 't']
  else if c = '\r' then ['\\', 'r']
  else if c.toNat = 8 then ['\\', 'b']
  else if c.toNat = 12 then ['\\', 'f']
  else if 32 ≤ c.toNat ∧ c.toNat ≤ 126 then [c]
  else if c.toNat < 65536 then '\\' :: 'u' :: hex4 c.toNat
  else
    '\\' :: 'u' :: hex4 (55296 + (c.toNat - 65536) / 1024) ++
      ('\\' :: 'u' :: hex4 (56320 + (c.toNat - 65536) % 1024))

def escapeString (s : String) : List Char :=
  s.data.flatMap escapeChar

/-- A JSON string literal: quote, escaped body, quote. -/
def dumpString (s : String) : List Char :=
  '"' :: (escapeString s ++ ['"'])

/-- Decimal digit characters of `n`, most significant first. -/
def natDigits (n : Nat) : List Char :=
  if n < 10 then [Char.ofNat (48 + n)]
  else natDigits (n / 10) ++ [Char.ofNat (48 + n % 10)]
termination_by n
decreasing_by exact Nat.div_lt_self (by omega) (by omega)

/-- `repr` of an int: optional minus sign and decimal digits, as
`json.dumps` emits integers. -/
def intChars (i : Int) : List Char :=
  if i < 0 then '-' :: natDigits i.natAbs else natDigits i.natAbs

mutual
/-- `json.dumps(v)` with the default separators `", "` and `": "` and
`ensure_ascii=True`, on the embedded value type. -/
def dumpVal : JVal → List Char
  | .null => 'n' :: ['u', 'l', 'l']
  | .bool true => 't' :: ['r', 'u', 'e']
  | .bool false => 'f' :: ['a', 'l', 's', 'e']
  | .int n => intChars n
  | .str s => dumpString s
  | .arr xs => '[' :: (dumpArr xs ++ [']'])
  | .obj fs => lbrace :: (dumpObj fs ++ [rbrace])

/-- Array elements joined by `", "`. -/
def dumpArr : List JVal → List Char
  | [] => []
  | [x] => dumpVal x
  | x :: y :: rest => dumpVal x ++ ',' :: ' ' :: dumpArr (y :: rest)

/-- Object members `"key": value` joined by `", "`. -/
def dumpObj : List (String × JVal) → List Char
  | [] => []
  | [(k, v)] => dumpString k ++ ':' :: ' ' :: dumpVal v
  | (k, v) :: kv :: rest =>
      dumpString k ++ ':' :: ' ' :: dumpVal v ++ ',' :: ' ' :: dumpObj (kv :: rest)
end

/-- `"\n".join(lines)`, on raw character lists. -/
def joinNl : List (List Char) → List Char
  | [] => []
  | [l] => l
  | l :: l2 :: ls => l ++ '\n' :: joinNl (l2 :: ls)

/-- `body.split("\n")`: always at least one piece; an empty body yields
`[""]`. -/
def splitNl : List Char → List (List Char)
  | [] => [[]]
  | c :: cs =>
      if c = '\n' then [] :: splitNl cs
      else
        match splitNl cs with
        | l :: ls => (c :: l) :: ls
        | [] => [[c]]

/-! ### The JSON reader (`json.loads` on the serialized fragment) -/

def isWsChar (c : Char) : Bool :=
  c == ' ' || c == '\t' || c == '\n' || c == '\r'

def dropWs : List Char → List Char
  | c :: cs => if isWsChar c then dropWs cs else c :: cs
  | [] => []

/-- The leading digit run of the input and the remainder. -/
def digitSpan : List Char → List Char × List Char
  | c :: cs =>
      if c.isDigit then
        let (ds, r) := digitSpan cs
        (c :: ds, r)
      else ([], c :: cs)
  | [] => ([], [])

/-- The value of a digit run. -/
def digitsVal (ds : List Char) : Nat :=
  ds.foldl (fun a c => a * 10 + (c.toNat - 48)) 0

/-- The value of one hex digit (both cases accepted, as `json.loads` does). -/
def hexVal (c : Char) : Option Nat :=
  if 48 ≤ c.toNat ∧ c.toNat ≤ 57 then some (c.toNat - 48)
  else if 97 ≤ c.toNat ∧ c.toNat ≤ 102 then some (c.toNat - 87)
  else if 65 ≤ c.toNat ∧ c.toNat ≤ 70 then some (c.toNat - 55)
  else none

/-- The short escapes `json.loads` understands after a backslash. -/
def unescapeShort (e : Char) : Option Char :=
  if e = '"' then some '"'
  else if e = '\\' then some '\\'
  else if e = '/' then some '/'
  else if e = 'n' then some '\n'
  else if e = 't' then some '\t'
  else if e = 'r' then some '\r'
  else if e = 'b' then some (Char.ofNat 8)
  else if e = 'f' then some (Char.ofNat 12)
  else none

/-- Four hex digits after `\u`, read as a number, with the remaining input. -/
def parseHex4 : List Char → Option (Nat × List Char)
  | a :: b :: c :: d :: rest =>
      match hexVal a, hexVal b, hexVal c, hexVal d with
      | some va, some vb, some vc, some vd =>
          some (((va * 16 + vb) * 16 + vc) * 16 + vd, rest)
      | _, _, _, _ => none
  | _ => none

/-- After a high surrogate from `\uXXXX`: a second `\uXXXX` holding a low
surrogate, recombined into one code point as `json.loads` does. -/
def parseLowSurrogate (n : Nat) : List Char → Option (Nat × List Char)
  | b1 :: b2 :: rest =>
      if b1 = '\\' ∧ b2 = 'u' then
        match parseHex4 rest with
        | some (m, rest2) =>
            if 56320 ≤ m ∧ m < 57344 then
              some (65536 + (n - 55296) * 1024 + (m - 56320), rest2)
            else none
        | none => none
      else none
  | _ => none

/-- The body of a string literal after its opening quote: literal characters,
short escapes, `\uXXXX`, and surrogate pairs recombined as `json.loads` does
(a lone surrogate is rejected; the serializer never emits one). -/
def parseQuoted : Nat → List Char → List Char → Option (String × List Char)
  | 0, _, _ => none
  | fuel + 1, cs, acc =>
      match cs with
      | [] => none
      | c :: rest =>
          if c = '"' then some (⟨acc.reverse⟩, rest)
          else if c = '\\' then
            match rest with
            | [] => none
            | e :: rest2 =>
                if e = 'u' then
                  match parseHex4 rest2 with
                  | some (n, rest3) =>
                      if n < 55296 ∨ 57344 ≤ n then
                        parseQuoted fuel rest3 (Char.ofNat n :: acc)
                      else if n < 56320 then
                        match parseLowSurrogate n rest3 with
                        | some (m, rest4) =>
                            parseQuoted fuel rest4 (Char.ofNat m :: acc)
                        | none => none
                      else none
                  | none => none
                else
                  match unescapeShort e with
                  | some ch => parseQuoted fuel rest2 (ch :: acc)
                  | none => none
          else parseQuoted fuel rest (c :: acc)

mutual
/-- One JSON value at the head of the input (no leading whitespace),
dispatching on the first character as `json.loads`'s scanner does.  The fuel
decreases on every sub-parse, making totality structural. -/
def parseVal : Nat → List Char → Option (JVal × List Char)
  | 0, _ => none
  | fuel + 1, cs =>
      match cs with
      | [] => none
      | c :: rest =>
          if c = 'n' then
            match rest with
            | 'u' :: 'l' :: 'l' :: rest2 => some (.null, rest2)
            | _ => none
          else if c = 't' then
            match rest with
            | 'r' :: 'u' :: 'e' :: rest2 => some (.bool true, rest2)
            | _ => none
          else if c = 'f' then
            match rest with
            | 'a' :: 'l' :: 's' :: 'e' :: rest2 => some (.bool false, rest2)
            | _ => none
          else if c = '"' then
            match parseQuoted (rest.length + 1) rest [] with
            | some (s, rest2) => some (.str s, rest2)
            | none => none
          else if c = '-' then
            match digitSpan rest with
            | ([], _) => none
            | (ds, rest2) => some (.int (-(digitsVal ds : Int)), rest2)
          else if c = '[' then
            match dropWs rest with
            | [] => none
            | c2 :: rest2 =>
                if c2 = ']' then some (.arr [], rest2)
                else
                  match parseItems fuel (c2 :: rest2) with
                  | some (xs, rest3) => some (.arr xs, rest3)
                  | none => none
          else if c = lbrace then
            match dropWs rest with
            | [] => none
            | c2 :: rest2 =>
                if c2 = rbrace then some (.obj [], rest2)
                else
                  match parseFields fuel (c2 :: rest2) with
                  | some (fs, rest3) =>
                      some (.obj (fs.foldl (fun d kv => dset d kv.1 kv.2) []), rest3)
                  | none => none
          else if c.isDigit then
            match digitSpan (c :: rest) with
            | ([], _) => none
            | (ds, rest2) => some (.int (digitsVal ds : Int), rest2)
          else none

/-- One-or-more comma-separated array elements up to the closing bracket. -/
def parseItems : Nat → List Char → Option (List JVal × List Char)
  | 0, _ => none
  | fuel + 1, cs =>
      match parseVal fuel (dropWs cs) with
      | none => none
      | some (v, rest) =>
          match dropWs rest with
          | [] => none
          | c :: rest2 =>
              if c = ',' then
                match parseItems fuel rest2 with
                | some (vs, rest3) => some (v :: vs, rest3)
                | none => none
              else if c = ']' then some ([v], rest2)
              else none

/-- One-or-more comma-separated `"key": value` members up to the closing
brace. -/
def parseFields : Nat → List Char → Option (List (String × JVal) × List Char)
  | 0, _ => none
  | fuel + 1, cs =>
      match dropWs cs with
      | [] => none
      | c :: rest =>
          if c = '"' then
            match parseQuoted (rest.length + 1) rest [] with
            | none => none
            | some (k, rest1) =>
                match dropWs rest1 with
                | [] => none
                | c2 :: rest2 =>
                    if c2 = ':' then
                      match parseVal fuel (dropWs rest2) with
                      | none => none
                      | some (v, rest3) =>
                          match dropWs rest3 with
                          | [] => none
                          | c3 :: rest4 =>
                              if c3 = ',' then
                                match parseFields fuel rest4 with
                                | some (fs, rest5) => some ((k, v) :: fs, rest5)
                                | none => none
                              else if c3 = rbrace then some ([(k, v)], rest4)
                              else none
                    else none
          else none
end

/-- `json.loads(line)`, on the grammar fragment the pipeline serializes:
parse one value, then require only whitespace to remain. -/
def loads (line : List Char) : Option JVal :=
  match parseVal (line.length + 1) (dropWs line) with
  | some (v, rest) => if dropWs rest = [] then some v else none
  | none => none

/-! ### Store operations of the handler -/

/-- `YouTubeCommentsHandler.upload_comments_to_s3`
(src/function/src/app.py:128-141): one `put_object` of the newline-joined
JSON lines under `data/{video_id}.json`. -/
def upload_comments_to_s3 (store : Store) (comments : List Dict)
    (video_id : String) : Store :=
  storePut store (s3Key video_id) ⟨joinNl (comments.map (fun c => dumpVal (.obj c)))⟩

/-- `YouTubeCommentsHandler.retrieve_comments_from_s3`
(src/function/src/app.py:143-154): split the body on newlines and
`json.loads` every line. -/
def retrieve_comments_from_s3 (store : Store) (video_id : String) :
    Except String (List JVal) :=
  match storeGet store (s3Key video_id) with
  | none => .error "NoSuchKey"
  | some body =>
      exceptMap (fun line =>
        match loads line with
        | some v => Except.ok v
        | none => Except.error "JSONDecodeError") (splitNl body.data)

/-- `YouTubeCommentsHandler.remove_comments_from_s3`
(src/function/src/app.py:156-162). -/
def remove_comments_from_s3 (store : Store) (video_id : String) : Store :=
  storeDelete store (s3Key video_id)

/-- The tail of the handler's INSERT path (src/function/src/app.py:237-241):
enrich the retrieved comments with the default `batch_size=25`, then upload;
a raised error propagates and nothing is written. -/
def enrichAndStore (svc : List JVal → List SentimentResult) (store : Store)
    (video_id : String) (comments : List Dict) : Except String Store :=
  match batch_detect_sentiment svc comments 25 with
  | .error e => .error e
  | .ok cws => .ok (upload_comments_to_s3 store cws video_id)

/-! ### Event parsing and the handler -/

inductive Action where
  | INSERT : Action
  | REMOVE : Action
deriving DecidableEq

/-- The pydantic `Event` model (src/function/src/app.py:202-205): all three
fields are required. -/
structure Event where
  video_id : String
  action : Action
  execution_id : String

/-- `@event_parser(model=Event)`: validation of the raw invocation payload.
Every field must be present and a string, and `action` must be one of the
`Action` enum's values; otherwise the handler raises a validation error. -/
def parseEvent (raw : Dict) : Except String Event :=
  match dget raw "video_id", dget raw "action", dget raw "execution_id" with
  | some (.str vid), some (.str act), some (.str eid) =>
      if act = "INSERT" then .ok ⟨vid, .INSERT, eid⟩
      else if act = "REMOVE" then .ok ⟨vid, .REMOVE, eid⟩
      else .error "ValidationError: action"
  | _, _, _ => .error "ValidationError: missing or non-string field"

/-- `lambda_handler` (src/function/src/app.py:211-264): event parsing and the
action dispatch.  The INSERT arm's body is abstracted as `insertPath` (it
composes the network collaborators); the REMOVE arm is modelled in full and
returns `{"action": action, "video_id": video_id}`. -/
def lambda_handler (insertPath : Store → Event → Except String (Store × Dict))
    (store : Store) (raw : Dict) : Except String (Store × Dict) :=
  match parseEvent raw with
  | .error e => .error e
  | .ok ev =>
      match ev.action with
      | .INSERT => insertPath store ev
      | .REMOVE =>
          .ok (remove_comments_from_s3 store ev.video_id,
            [("action", .str "REMOVE"), ("video_id", .str ev.video_id)])

/-- The fetcher serves the given finite list of pages along the chain of
continuation tokens starting at `tok`: each page but the last carries a
non-empty continuation token, under which the fetcher serves the next page,
and the last page carries none. -/
def pageChain (fetch : Option String → Page) : Option String → List Page → Prop
  | _, [] => False
  | tok, [p] => fetch tok = p ∧ p.nextPageToken = none
  | tok, p :: q :: ps =>
      fetch tok = p ∧ (∃ t, p.nextPageToken = some t ∧ t ≠ "") ∧
        pageChain fetch p.nextPageToken (q :: ps)

/-- Distinctness of an object's keys (what building the dict by insertion
guarantees). -/
def keysDistinct : List String → Bool
  | [] => true
  | k :: ks => !(ks.contains k) && keysDistinct ks

mutual
/-- Well-formedness of a serialized value: every object, at any depth, has
distinct keys (true of every dict the pipeline builds). -/
def jwf : JVal → Bool
  | .null => true
  | .bool _ => true
  | .int _ => true
  | .str _ => true
  | .arr xs => jwfList xs
  | .obj fs => keysDistinct (fs.map (fun kv => kv.1)) && jwfFields fs

def jwfList : List JVal → Bool
  | [] => true
  | x :: xs => jwf x && jwfList xs

def jwfFields : List (String × JVal) → Bool
  | [] => true
  | (_, v) :: fs => jwf v && jwfFields fs
end

mutual
/-- The node count of a value, used to bound the parser fuel. -/
def jsize : JVal → Nat
  | .null => 1
  | .bool _ => 1
  | .int _ => 1
  | .str _ => 1
  | .arr xs => 1 + jsizeList xs
  | .obj fs => 1 + jsizeFields fs

def jsizeList : List JVal → Nat
  | [] => 0
  | x :: xs => 1 + jsize x + jsizeList xs

def jsizeFields : List (String × JVal) → Nat
  | [] => 0
  | (_, v) :: fs => 1 + jsize v + jsizeFields fs
end

/-- Input that cannot extend a just-parsed number: empty, or headed by a
non-digit. -/
def numBoundary : List Char → Bool
  | [] => true
  | c :: _ => !c.isDigit

/-! ### Character-level facts used for the key-recasing claims -/

theorem toNat_ofNat_valid (n : Nat) (h : n.isValidChar) : (Char.ofNat n).toNat = n := by
  simp [Char.ofNat, h, Char.ofNatAux, Char.toNat, UInt32.toNat]

theorem isUpper_iff (c : Char) : c.isUpper = true ↔ 65 ≤ c.toNat ∧ c.toNat ≤ 90 := by
  rw [Char.isUpper]
  simp only [Bool.and_eq_true, decide_eq_true_eq]
  exact Iff.rfl

theorem isLower_iff (c : Char) : c.isLower = true ↔ 97 ≤ c.toNat ∧ c.toNat ≤ 122 := by
  rw [Char.isLower]
  simp only [Bool.and_eq_true, decide_eq_true_eq]
  exact Iff.rfl

theorem toNat_inj {c d : Char} (h : c.toNat = d.toNat) : c = d :=
  Char.ext (UInt32.ext h)

theorem toLower_toNat (c : Char) :
    (Char.toLower c).toNat = if 65 ≤ c.toNat ∧ c.toNat ≤ 90 then c.toNat + 32 else c.toNat := by
  rw [Char.toLower]
  split
  · rename_i h
    rw [toNat_ofNat_valid _ (by rcases h with ⟨h1, h2⟩; left; omega)]
  · rfl

/-- `str.lower` never produces an (ASCII) uppercase letter. -/
theorem isUpper_toLower (c : Char) : (Char.toLower c).isUpper = false := by
  rw [Bool.eq_false_iff]
  intro hu
  rw [isUpper_iff, toLower_toNat] at hu
  split at hu <;> omega

theorem toLower_of_not_upper (c : Char) (h : c.isUpper = false) : Char.toLower c = c := by
  rw [Char.toLower, if_neg]
  intro hc
  rw [Bool.eq_false_iff] at h
  exact h ((isUpper_iff c).mpr (by omega))

theorem toLower_dash_ne (x : Char) : Char.toLower (dashToUnderscore x) ≠ '-' := by
  intro he
  have h45 : (Char.toLower (dashToUnderscore x)).toNat = 45 := by rw [he]; decide
  rw [toLower_toNat] at h45
  split at h45
  · omega
  · have hx' : dashToUnderscore x = '-' := toNat_inj (h45.trans (by decide))
    rw [dashToUnderscore] at hx'
    split at hx'
    · exact absurd hx' (by decide)
    · rename_i hx; exact hx hx'

theorem upper_not_lower (c : Char) (h : c.isUpper = true) :
    c.isLower = false ∧ c.isDigit = false := by
  rw [isUpper_iff] at h
  constructor
  · rw [Bool.eq_false_iff]; intro hl; rw [isLower_iff] at hl; omega
  · rw [Bool.eq_false_iff]; intro hd
    rw [Char.isDigit] at hd
    simp only [Bool.and_eq_true, decide_eq_true_eq] at hd
    have hd' : 48 ≤ c.toNat ∧ c.toNat ≤ 57 := hd
    omega

theorem map_id_of_mem {α : Type} (f : α → α) :
    ∀ l : List α, (∀ a ∈ l, f a = a) → l.map f = l
  | [], _ => rfl
  | a :: l, h => by
      rw [List.map_cons, h a (by simp), map_id_of_mem f l (fun x hx => h x (by simp [hx]))]

/-! ### Behaviour of the two substitution passes -/

theorem capRunSplit_of_no_upper :
    ∀ l : List Char, (∀ c ∈ l, c.isUpper = false) → capRunSplit l = l
  | [], _ => rfl
  | [_], _ => rfl
  | [_, _], _ => rfl
  | c1 :: c2 :: c3 :: cs, h => by
      rw [capRunSplit, if_neg, capRunSplit_of_no_upper (c2 :: c3 :: cs)
        (fun c hc => h c (List.mem_cons_of_mem c1 hc))]
      rw [h c1 (by simp)]
      simp

theorem lowerCapSplit_of_no_upper :
    ∀ l : List Char, (∀ c ∈ l, c.isUpper = false) → lowerCapSplit l = l
  | [], _ => rfl
  | [_], _ => rfl
  | c1 :: c2 :: cs, h => by
      rw [lowerCapSplit, if_neg, lowerCapSplit_of_no_upper (c2 :: cs)
        (fun c hc => h c (List.mem_cons_of_mem c1 hc))]
      rw [h c2 (by simp)]
      simp

theorem camel_no_dash : ∀ l, camelKey l = true → ∀ c ∈ l, c ≠ '-'
  | [], _, c, hc => absurd hc (List.not_mem_nil c)
  | [a], h, c, hc => by
      rw [camelKey] at h
      rw [List.mem_singleton] at hc
      subst hc
      simpa using h
  | a :: b :: cs, h, c, hc => by
      rw [camelKey] at h
      simp only [Bool.and_eq_true, bne_iff_ne, ne_eq] at h
      rcases List.mem_cons.mp hc with rfl | hc2
      · exact h.1.1
      · exact camel_no_dash (b :: cs) h.2 c hc2

theorem capRunSplit_of_camel :
    ∀ l : List Char, camelKey l = true → capRunSplit l = l
  | [], _ => rfl
  | [_], _ => rfl
  | [_, _], _ => rfl
  | c1 :: c2 :: c3 :: cs, h => by
      rw [camelKey] at h
      simp only [Bool.and_eq_true, bne_iff_ne, ne_eq, Bool.or_eq_true,
        Bool.not_eq_true'] at h
      obtain ⟨⟨h1, h2⟩, h3⟩ := h
      rw [capRunSplit, if_neg, capRunSplit_of_camel (c2 :: c3 :: cs) h3]
      intro hcond
      simp only [Bool.and_eq_true] at hcond
      obtain ⟨⟨hu1, hu2⟩, _⟩ := hcond
      rcases h2 with h2 | h2
      · rw [h2] at hu2; exact Bool.false_ne_true hu2
      · rcases h2 with h2 | h2
        · exact Bool.false_ne_true (((upper_not_lower c1 hu1).1).symm.trans h2)
        · exact Bool.false_ne_true (((upper_not_lower c1 hu1).2).symm.trans h2)

theorem lowerCapSplit_of_camel :
    ∀ (c : Char) (cs : List Char), camelKey (c :: cs) = true →
      lowerCapSplit (c :: cs) = c :: specIns cs
  | _, [], _ => rfl
  | c, c2 :: cs, h => by
      rw [camelKey] at h
      simp only [Bool.and_eq_true, bne_iff_ne, ne_eq, Bool.or_eq_true,
        Bool.not_eq_true'] at h
      obtain ⟨⟨h1, h2⟩, h3⟩ := h
      rw [lowerCapSplit]
      rcases h2 with h2 | h2
      · rw [if_neg, lowerCapSplit_of_camel c2 cs h3]
        · simp [specIns, h2]
        · simp [h2]
      · cases hcu : c2.isUpper with
        | false =>
            rw [if_neg, lowerCapSplit_of_camel c2 cs h3]
            · simp [specIns, hcu]
            · simp
        | true =>
            rw [if_pos, lowerCapSplit_of_camel c2 cs h3]
            · simp [specIns, hcu]
            · rcases h2 with h2 | h2 <;> simp [h2]

theorem mem_specIns {c : Char} {cs : List Char} (h : c ∈ specIns cs) :
    c = '_' ∨ c ∈ cs := by
  rw [specIns, List.mem_flatMap] at h
  obtain ⟨d, hd, hc⟩ := h
  by_cases hu : d.isUpper = true
  · rw [if_pos hu] at hc
    rcases List.mem_cons.mp hc with rfl | hc2
    · exact Or.inl rfl
    · rw [List.mem_singleton] at hc2
      exact Or.inr (hc2 ▸ hd)
  · rw [if_neg hu] at hc
    rw [List.mem_singleton] at hc
    exact Or.inr (hc ▸ hd)

/-- On camel-cased keys the regex-based transform agrees with the spec's
pure description. -/
theorem underscore_eq_specRekey (w : String) (h : camelKey w.data = true) :
    underscore w = specRekey w := by
  rw [underscore, specRekey]
  cases hd : w.data with
  | nil => rfl
  | cons c cs =>
      rw [hd] at h
      rw [capRunSplit_of_camel _ h, lowerCapSplit_of_camel c cs h]
      rw [map_id_of_mem dashToUnderscore (c :: specIns cs) (by
        intro a ha
        rw [dashToUnderscore, if_neg]
        rcases List.mem_cons.mp ha with rfl | ha2
        · exact camel_no_dash _ h a (by simp)
        · rcases mem_specIns ha2 with rfl | ha3
          · decide
          · exact camel_no_dash _ h a (List.mem_cons_of_mem c ha3))]

/-- The regex-based transform is idempotent: its output has no uppercase
letters and no hyphens, so a second application changes nothing. -/
theorem underscore_idem (w : String) : underscore (underscore w) = underscore w := by
  rw [underscore, underscore]
  have hnu : ∀ c ∈ ((lowerCapSplit (capRunSplit w.data)).map dashToUnderscore).map Char.toLower,
      c.isUpper = false := by
    intro c hc
    obtain ⟨y, _, rfl⟩ := List.mem_map.mp hc
    exact isUpper_toLower y
  rw [show (String.mk (((lowerCapSplit (capRunSplit w.data)).map dashToUnderscore).map
        Char.toLower)).data
      = ((lowerCapSplit (capRunSplit w.data)).map dashToUnderscore).map Char.toLower from rfl]
  rw [capRunSplit_of_no_upper _ hnu, lowerCapSplit_of_no_upper _ hnu]
  rw [map_id_of_mem dashToUnderscore _ (by
    intro a ha
    obtain ⟨y, hy, rfl⟩ := List.mem_map.mp ha
    obtain ⟨z, _, rfl⟩ := List.mem_map.mp hy
    rw [dashToUnderscore, if_neg (toLower_dash_ne z)])]
  rw [map_id_of_mem Char.toLower _ (by
    intro a ha
    obtain ⟨y, _, rfl⟩ := List.mem_map.mp ha
    exact toLower_of_not_upper _ (isUpper_toLower y))]

end YCA
namespace YCA

/-! ### Dictionary lemmas -/

theorem dget_nil (k : String) : dget [] k = none := rfl

theorem dget_cons (kv : String × JVal) (d : Dict) (k : String) :
    dget (kv :: d) k = if kv.1 == k then some kv.2 else dget d k := by
  cases h : (kv.1 == k) with
  | true => simp [dget, List.find?_cons, h]
  | false => simp [dget, List.find?_cons, h]

theorem dget_append (d tail : Dict) (k : String) :
    dget (d ++ tail) k =
      match dget d k with
      | some v => some v
      | none => dget tail k := by
  induction d with
  | nil => rw [List.nil_append, dget_nil]
  | cons kv rest ih =>
      rw [List.cons_append, dget_cons, dget_cons]
      cases hk : (kv.1 == k) with
      | true => rw [if_pos rfl, if_pos rfl]
      | false => rw [if_neg (by simp), if_neg (by simp), ih]

theorem dget_map_set_self (k : String) (v : JVal) :
    ∀ d : Dict, d.any (fun kv => kv.1 == k) = true →
      dget (d.map (fun kv => if kv.1 == k then (k, v) else kv)) k = some v
  | [], h => by simp at h
  | kv :: rest, h => by
      rw [List.map_cons]
      cases hk : (kv.1 == k) with
      | true =>
          rw [if_pos rfl, dget_cons]
          simp
      | false =>
          rw [if_neg (by simp), dget_cons, if_neg (by simp [hk])]
          apply dget_map_set_self k v rest
          rw [List.any_cons, hk] at h
          simpa using h

theorem dget_dset_self (d : Dict) (k : String) (v : JVal) :
    dget (dset d k v) k = some v := by
  rw [dset]
  split
  · rename_i hany
    exact dget_map_set_self k v d hany
  · rw [dget_append]
    rename_i hany
    rw [Bool.not_eq_true] at hany
    have hnone : dget d k = none := by
      rcases hfind : d.find? (fun kv => kv.1 == k) with _ | kv
      · rw [dget, hfind]; rfl
      · have heq := List.find?_some hfind
        have hmem := List.mem_of_find?_eq_some hfind
        have : d.any (fun kv => kv.1 == k) = true :=
          List.any_eq_true.mpr ⟨kv, hmem, heq⟩
        rw [this] at hany
        exact absurd hany (by simp)
    rw [hnone, dget_cons]
    simp

theorem dget_map_set_other (k k2 : String) (v : JVal) (hne : k2 ≠ k) :
    ∀ d : Dict,
      dget (d.map (fun kv => if kv.1 == k then (k, v) else kv)) k2 = dget d k2
  | [] => rfl
  | kv :: rest => by
      rw [List.map_cons]
      cases hk : (kv.1 == k) with
      | true =>
          rw [if_pos rfl, dget_cons, dget_cons]
          have hkk2 : ¬((k == k2) = true) := by
            simp only [beq_iff_eq]
            exact fun he => hne he.symm
          have hkveq : kv.1 = k := by simpa using hk
          have hkv2 : ¬((kv.1 == k2) = true) := by
            simp only [beq_iff_eq, hkveq]
            exact fun he => hne he.symm
          rw [if_neg hkk2, if_neg hkv2]
          exact dget_map_set_other k k2 v hne rest
      | false =>
          rw [if_neg (by simp), dget_cons, dget_cons]
          cases hk2 : (kv.1 == k2) with
          | true => rw [if_pos rfl, if_pos rfl]
          | false =>
              rw [if_neg (by simp), if_neg (by simp)]
              exact dget_map_set_other k k2 v hne rest

theorem dget_dset_other (d : Dict) (k k2 : String) (v : JVal) (hne : k2 ≠ k) :
    dget (dset d k v) k2 = dget d k2 := by
  rw [dset]
  split
  · exact dget_map_set_other k k2 v hne d
  · rw [dget_append]
    cases hd : dget d k2 with
    | some v2 => rfl
    | none =>
        show dget [(k, v)] k2 = none
        rw [dget_cons, dget_nil, if_neg]
        simp only [beq_iff_eq]
        exact fun he => hne he.symm

theorem dget_dextend_of_not_mem :
    ∀ (pairs : Dict) (d : Dict) (k : String), dget pairs k = none →
      dget (dextend d pairs) k = dget d k
  | [], _, _, _ => rfl
  | kv :: pairs, d, k, h => by
      rw [dget_cons] at h
      cases hk : (kv.1 == k) with
      | true => simp [hk] at h
      | false =>
          simp only [hk, Bool.false_eq_true, if_false] at h
          rw [dextend, List.foldl_cons]
          have h2 := dget_dextend_of_not_mem pairs (dset d kv.1 kv.2) k h
          rw [dextend] at h2
          rw [h2, dget_dset_other]
          intro he
          rw [he] at hk
          simp at hk

theorem dget_dextend_of_mem :
    ∀ (pairs : Dict) (d : Dict) (k : String) (v : JVal),
      dget pairs k = some v → (dkeys pairs).Nodup →
      dget (dextend d pairs) k = some v
  | [], _, _, _, h, _ => by rw [dget_nil] at h; exact absurd h (by simp)
  | kv :: pairs, d, k, v, h, hnd => by
      rw [dkeys, List.map_cons, List.nodup_cons] at hnd
      rw [dget_cons] at h
      rw [dextend, List.foldl_cons]
      cases hk : (kv.1 == k) with
      | true =>
          rw [hk, if_pos rfl] at h
          have hkeq : kv.1 = k := by simpa using hk
          have hnone : dget pairs k = none := by
            rcases hfind : (pairs.find? (fun kv2 => kv2.1 == k)) with _ | kv2
            · rw [dget, hfind]; rfl
            · have heq := List.find?_some hfind
              have hmem2 := List.mem_of_find?_eq_some hfind
              have hin : kv2.1 ∈ pairs.map (fun kv3 => kv3.1) :=
                List.mem_map.mpr ⟨kv2, hmem2, rfl⟩
              rw [show kv2.1 = k from by simpa using heq, ← hkeq] at hin
              exact absurd hin hnd.1
          have h2 := dget_dextend_of_not_mem pairs (dset d kv.1 kv.2) k hnone
          rw [dextend] at h2
          rw [h2, hkeq, dget_dset_self]
          cases h
          rfl
      | false =>
          simp only [hk, Bool.false_eq_true, if_false] at h
          have h2 := dget_dextend_of_mem pairs (dset d kv.1 kv.2) k v h hnd.2
          rw [dextend] at h2
          rw [h2]

end YCA
namespace YCA

/-! ### Normalization lemmas -/

theorem format_comment_ok (c : RawComment) (extra : Dict) (d : Dict)
    (h : format_comment c extra = Except.ok d) :
    ∃ acid, authorChannelValue c.snippet = Except.ok acid ∧
      d = dset (dset (dextend (dextend [("id", JVal.str c.id)]
            (c.snippet.foldl (fun acc kv => dset acc (underscore kv.1) kv.2) []))
          extra)
        "parent_id" (JVal.str (c.parentId.getD "none")))
        "author_channel_id" acid := by
  rw [format_comment] at h
  cases hac : authorChannelValue c.snippet with
  | error e => rw [hac] at h; exact absurd h (by simp)
  | ok acid =>
      rw [hac] at h
      cases h
      exact ⟨acid, rfl, rfl⟩

theorem format_comment_parent_id (c : RawComment) (extra : Dict) (d : Dict)
    (h : format_comment c extra = Except.ok d) :
    dget d "parent_id" = some (JVal.str (c.parentId.getD "none")) := by
  obtain ⟨acid, _, rfl⟩ := format_comment_ok c extra d h
  rw [dget_dset_other _ _ _ _ (by decide), dget_dset_self]

theorem format_comment_author_channel_id (c : RawComment) (extra : Dict) (d : Dict)
    (h : format_comment c extra = Except.ok d) :
    ∃ acid, authorChannelValue c.snippet = Except.ok acid ∧
      dget d "author_channel_id" = some acid := by
  obtain ⟨acid, hac, rfl⟩ := format_comment_ok c extra d h
  exact ⟨acid, hac, dget_dset_self _ _ _⟩

theorem format_comment_extra_wins (c : RawComment) (extra : Dict) (d : Dict)
    (h : format_comment c extra = Except.ok d) (hnd : (dkeys extra).Nodup)
    (k : String) (v : JVal) (hkv : dget extra k = some v)
    (hk1 : k ≠ "parent_id") (hk2 : k ≠ "author_channel_id") :
    dget d k = some v := by
  obtain ⟨acid, _, rfl⟩ := format_comment_ok c extra d h
  rw [dget_dset_other _ _ _ _ hk2, dget_dset_other _ _ _ _ hk1]
  exact dget_dextend_of_mem extra _ k v hkv hnd

theorem exceptMap_ok_length {α β : Type} (f : α → Except String β) :
    ∀ (l : List α) (out : List β), exceptMap f l = Except.ok out → out.length = l.length
  | [], out, h => by
      rw [exceptMap] at h
      cases h
      rfl
  | a :: l, out, h => by
      rw [exceptMap] at h
      cases hfa : f a with
      | error e => rw [hfa] at h; exact absurd h (by simp)
      | ok b =>
          rw [hfa] at h
          cases hrest : exceptMap f l with
          | error e => rw [hrest] at h; exact absurd h (by simp)
          | ok bs =>
              rw [hrest] at h
              cases h
              rw [List.length_cons, exceptMap_ok_length f l bs hrest, List.length_cons]

theorem exceptMap_ok_mem {α β : Type} (f : α → Except String β) :
    ∀ (l : List α) (out : List β), exceptMap f l = Except.ok out →
      ∀ b ∈ out, ∃ a ∈ l, f a = Except.ok b
  | [], out, h => by
      rw [exceptMap] at h
      cases h
      intro b hb
      exact absurd hb (List.not_mem_nil b)
  | a :: l, out, h => by
      rw [exceptMap] at h
      cases hfa : f a with
      | error e => rw [hfa] at h; exact absurd h (by simp)
      | ok b0 =>
          rw [hfa] at h
          cases hrest : exceptMap f l with
          | error e => rw [hrest] at h; exact absurd h (by simp)
          | ok bs =>
              rw [hrest] at h
              cases h
              intro b hb
              rcases List.mem_cons.mp hb with rfl | hb2
              · exact ⟨a, by simp, hfa⟩
              · obtain ⟨a2, ha2, hfa2⟩ := exceptMap_ok_mem f l bs hrest b hb2
                exact ⟨a2, List.mem_cons_of_mem a ha2, hfa2⟩

end YCA
namespace YCA

/-! ### Claim C2: reply promotion and parent linkage -/

/-- C2: for an upstream item whose replies block holds N replies (each carrying
the top-level comment's id in its `parentId`, as the upstream API guarantees,
and the top-level comment itself carrying no `parentId`), normalization emits
exactly N+1 comments: the top-level comment first with `parent_id = "none"`,
then the N replies in source order, each with `parent_id` equal to the
top-level comment's id. -/
theorem C2_reply_promotion (item : RawItem) (extra : Dict) (rs : List RawComment)
    (cs : List Dict) (N : Nat)
    (hrep : item.replies = some rs) (hN : rs.length = N)
    (htop : item.topLevelComment.parentId = none)
    (hpar : ∀ r ∈ rs, r.parentId = some item.topLevelComment.id)
    (hok : processItem item extra = Except.ok cs) :
    cs.length = N + 1 ∧
    (∃ top, format_comment item.topLevelComment extra = Except.ok top ∧
      cs = top :: cs.tail ∧ dget top "parent_id" = some (JVal.str "none")) ∧
    exceptMap (fun r => format_comment r extra) rs = Except.ok cs.tail ∧
    (∀ d ∈ cs.tail, dget d "parent_id" = some (JVal.str item.topLevelComment.id)) := by
  cases htf : format_comment item.topLevelComment extra with
  | error e =>
      simp only [processItem, hrep, htf] at hok
      exact absurd hok (by simp)
  | ok top =>
      cases hreps : exceptMap (fun r => format_comment r extra) rs with
      | error e =>
          simp only [processItem, hrep, htf, hreps] at hok
          exact absurd hok (by simp)
      | ok reps =>
          simp only [processItem, hrep, htf, hreps, Except.ok.injEq] at hok
          subst hok
          refine ⟨?_, ⟨top, rfl, rfl, ?_⟩, rfl, ?_⟩
          · rw [List.length_cons, exceptMap_ok_length _ rs reps hreps, hN]
          · have h2 := format_comment_parent_id _ _ _ htf
            rw [htop] at h2
            exact h2
          · intro d hd
            obtain ⟨r, hr, hfr⟩ := exceptMap_ok_mem _ rs reps hreps d hd
            have h2 := format_comment_parent_id _ _ _ hfr
            rw [hpar r hr] at h2
            exact h2

/-- C2 (witness): a concrete item with two replies. -/
theorem C2_reply_promotion_witness :
    processItem
      ⟨⟨"top1", [("textDisplay", JVal.str "hello")], none⟩,
       some [⟨"r1", [("textDisplay", JVal.str "re1")], some "top1"⟩,
             ⟨"r2", [("textDisplay", JVal.str "re2")], some "top1"⟩]⟩
      [("execution_id", JVal.str "e1")]
      = Except.ok
        [[("id", JVal.str "top1"), ("text_display", JVal.str "hello"),
          ("execution_id", JVal.str "e1"), ("parent_id", JVal.str "none"),
          ("author_channel_id", JVal.str "none")],
         [("id", JVal.str "r1"), ("text_display", JVal.str "re1"),
          ("execution_id", JVal.str "e1"), ("parent_id", JVal.str "top1"),
          ("author_channel_id", JVal.str "none")],
         [("id", JVal.str "r2"), ("text_display", JVal.str "re2"),
          ("execution_id", JVal.str "e1"), ("parent_id", JVal.str "top1"),
          ("author_channel_id", JVal.str "none")]] ∧
    (Except.ok
        [[("id", JVal.str "top1"), ("text_display", JVal.str "hello"),
          ("execution_id", JVal.str "e1"), ("parent_id", JVal.str "none"),
          ("author_channel_id", JVal.str "none")],
         [("id", JVal.str "r1"), ("text_display", JVal.str "re1"),
          ("execution_id", JVal.str "e1"), ("parent_id", JVal.str "top1"),
          ("author_channel_id", JVal.str "none")],
         [("id", JVal.str "r2"), ("text_display", JVal.str "re2"),
          ("execution_id", JVal.str "e1"), ("parent_id", JVal.str "top1"),
          ("author_channel_id", JVal.str "none")]]
      : Except String (List Dict)).map List.length = Except.ok 3 := by
  constructor
  · rfl
  · have h := C2_reply_promotion
      ⟨⟨"top1", [("textDisplay", JVal.str "hello")], none⟩,
       some [⟨"r1", [("textDisplay", JVal.str "re1")], some "top1"⟩,
             ⟨"r2", [("textDisplay", JVal.str "re2")], some "top1"⟩]⟩
      [("execution_id", JVal.str "e1")]
      [⟨"r1", [("textDisplay", JVal.str "re1")], some "top1"⟩,
       ⟨"r2", [("textDisplay", JVal.str "re2")], some "top1"⟩]
      [[("id", JVal.str "top1"), ("text_display", JVal.str "hello"),
        ("execution_id", JVal.str "e1"), ("parent_id", JVal.str "none"),
        ("author_channel_id", JVal.str "none")],
       [("id", JVal.str "r1"), ("text_display", JVal.str "re1"),
        ("execution_id", JVal.str "e1"), ("parent_id", JVal.str "top1"),
        ("author_channel_id", JVal.str "none")],
       [("id", JVal.str "r2"), ("text_display", JVal.str "re2"),
        ("execution_id", JVal.str "e1"), ("parent_id", JVal.str "top1"),
        ("author_channel_id", JVal.str "none")]]
      2 rfl rfl rfl
      (by
        intro r hr
        rcases List.mem_cons.mp hr with rfl | hr2
        · rfl
        · rcases List.mem_cons.mp hr2 with rfl | hr3
          · rfl
          · exact absurd hr3 (List.not_mem_nil r))
      rfl
    rw [Except.map, h.1]

end YCA
namespace YCA

/-! ### Claim C7: merging of extra fields -/

/-- C7 (counterexample): `extra_fields` DOES overwrite a derived field.  With
`extra_fields = {"id": "override"}`, the normalized comment's `id` is
`"override"`, not the derived upstream id `"c1"`: in the dict literal,
`**additional_data` comes after `"id"` and the snippet fields, so it wins
there (only `parent_id` and `author_channel_id` are assigned later). -/
theorem C7_counterexample :
    format_comment ⟨"c1", [("textDisplay", JVal.str "hi")], none⟩
        [("id", JVal.str "override")]
      = Except.ok [("id", JVal.str "override"), ("text_display", JVal.str "hi"),
          ("parent_id", JVal.str "none"), ("author_channel_id", JVal.str "none")] ∧
    dget [("id", JVal.str "override"), ("text_display", JVal.str "hi"),
          ("parent_id", JVal.str "none"), ("author_channel_id", JVal.str "none")] "id"
      = some (JVal.str "override") ∧
    JVal.str "override" ≠ JVal.str "c1" := by
  refine ⟨rfl, rfl, ?_⟩
  intro h
  rw [JVal.str.injEq] at h
  exact absurd h (by decide)

/-- C7 (amended): the dict literal merges `extra_fields` after the `id` and
snippet-derived fields but before `parent_id` and `author_channel_id`.  So
`parent_id` and `author_channel_id` always keep their derived values, while
every other key of `extra_fields` (a Python dict, hence with distinct keys)
ends up in the output with the `extra_fields` value — including on collision
with `id` or a snake-cased snippet key, which it overwrites. -/
theorem C7_merge_amended (c : RawComment) (extra : Dict) (d : Dict)
    (h : format_comment c extra = Except.ok d) (hnd : (dkeys extra).Nodup) :
    dget d "parent_id" = some (JVal.str (c.parentId.getD "none")) ∧
    (∃ acid, authorChannelValue c.snippet = Except.ok acid ∧
      dget d "author_channel_id" = some acid) ∧
    (∀ k v, dget extra k = some v → k ≠ "parent_id" → k ≠ "author_channel_id" →
      dget d k = some v) :=
  ⟨format_comment_parent_id c extra d h,
   format_comment_author_channel_id c extra d h,
   fun k v hkv hk1 hk2 => format_comment_extra_wins c extra d h hnd k v hkv hk1 hk2⟩

/-- C7 (amended, witness): at the counterexample input, `parent_id` and
`author_channel_id` keep the derived values while the colliding `id` key
takes the extra value. -/
theorem C7_merge_amended_witness :
    dget [("id", JVal.str "override"), ("text_display", JVal.str "hi"),
          ("parent_id", JVal.str "none"), ("author_channel_id", JVal.str "none")] "parent_id"
      = some (JVal.str "none") ∧
    dget [("id", JVal.str "override"), ("text_display", JVal.str "hi"),
          ("parent_id", JVal.str "none"), ("author_channel_id", JVal.str "none")] "id"
      = some (JVal.str "override") := by
  have h := C7_merge_amended ⟨"c1", [("textDisplay", JVal.str "hi")], none⟩
    [("id", JVal.str "override")]
    [("id", JVal.str "override"), ("text_display", JVal.str "hi"),
     ("parent_id", JVal.str "none"), ("author_channel_id", JVal.str "none")]
    rfl (by simp [dkeys])
  exact ⟨h.1, h.2.2 "id" (JVal.str "override") rfl (by decide) (by decide)⟩

/-! ### Claim C10: `author_channel_id` is always a plain string -/

/-- C10: the normalized `author_channel_id` is always a plain string — the
nested `authorChannelId.value` when present (a string, as upstream delivers
it), else the sentinel `"none"` — and never the raw nested mapping, even
though the snake-cased snippet also contributes a key `author_channel_id`
holding that mapping: the explicit string assignment is merged last and wins. -/
theorem C10_author_channel_id_string (c : RawComment) (extra : Dict) (d : Dict)
    (h : format_comment c extra = Except.ok d)
    (hval : ∀ m v, dget c.snippet "authorChannelId" = some (JVal.obj m) →
      dget m "value" = some v → ∃ s, v = JVal.str s) :
    ∃ s : String,
      dget d "author_channel_id" = some (JVal.str s) ∧
      (dget c.snippet "authorChannelId" = none → s = "none") ∧
      (∀ m, dget c.snippet "authorChannelId" = some (JVal.obj m) →
        dget m "value" = none → s = "none") ∧
      (∀ m v, dget c.snippet "authorChannelId" = some (JVal.obj m) →
        dget m "value" = some v → v = JVal.str s) := by
  obtain ⟨acid, hac, hd⟩ := format_comment_author_channel_id c extra d h
  rw [authorChannelValue] at hac
  cases hsnip : dget c.snippet "authorChannelId" with
  | none =>
      rw [hsnip] at hac
      simp only [Except.ok.injEq] at hac
      subst hac
      exact ⟨"none", hd, fun _ => rfl,
        fun m2 hm2 => absurd hm2 (by simp),
        fun m2 v hm2 => absurd hm2 (by simp)⟩
  | some av =>
      rw [hsnip] at hac
      cases av with
      | obj m =>
          cases hv : dget m "value" with
          | none =>
              simp only [hv, Option.getD_none, Except.ok.injEq] at hac
              subst hac
              refine ⟨"none", hd, fun hcon => absurd hcon (by simp),
                fun _ _ _ => rfl, ?_⟩
              intro m2 v2 hm2 hv2
              have hm2x : m2 = m := by
                injection hm2 with h2
                injection h2 with h3
                exact h3.symm
              subst hm2x
              rw [hv] at hv2
              exact absurd hv2 (by simp)
          | some v =>
              simp only [hv, Option.getD_some, Except.ok.injEq] at hac
              obtain ⟨s, rfl⟩ := hval m v hsnip hv
              subst hac
              refine ⟨s, hd, fun hcon => absurd hcon (by simp), ?_, ?_⟩
              · intro m2 hm2 hv2
                have hm2x : m2 = m := by
                  injection hm2 with h2
                  injection h2 with h3
                  exact h3.symm
                subst hm2x
                rw [hv] at hv2
                exact absurd hv2 (by simp)
              · intro m2 v2 hm2 hv2
                have hm2x : m2 = m := by
                  injection hm2 with h2
                  injection h2 with h3
                  exact h3.symm
                subst hm2x
                rw [hv] at hv2
                injection hv2 with h4
                exact h4.symm
      | null => simp at hac
      | bool b => simp at hac
      | int n => simp at hac
      | str s => simp at hac
      | arr xs => simp at hac

/-- C10 (witness): a concrete comment whose snippet carries the nested
author-channel mapping. -/
theorem C10_author_channel_id_string_witness :
    ∃ s : String,
      dget [("id", JVal.str "c9"), ("text_display", JVal.str "hi"),
            ("author_channel_id", JVal.str "UC1"), ("parent_id", JVal.str "none")]
          "author_channel_id"
        = some (JVal.str s) :=
  match C10_author_channel_id_string
    ⟨"c9", [("textDisplay", JVal.str "hi"),
            ("authorChannelId", JVal.obj [("value", JVal.str "UC1")])], none⟩
    []
    [("id", JVal.str "c9"), ("text_display", JVal.str "hi"),
     ("author_channel_id", JVal.str "UC1"), ("parent_id", JVal.str "none")]
    rfl
    (by
      intro m v hm hv
      have hm2 : m = [("value", JVal.str "UC1")] := by
        rw [show dget [("textDisplay", JVal.str "hi"),
              ("authorChannelId", JVal.obj [("value", JVal.str "UC1")])] "authorChannelId"
            = some (JVal.obj [("value", JVal.str "UC1")]) from rfl] at hm
        injection hm with h1
        injection h1 with h2
        exact h2.symm
      subst hm2
      rw [show dget [("value", JVal.str "UC1")] "value" = some (JVal.str "UC1") from rfl] at hv
      injection hv with h3
      exact ⟨"UC1", h3.symm⟩) with
  | ⟨s, hs, _⟩ => ⟨s, hs⟩

end YCA
namespace YCA

/-! ### Claim C3: the key-recasing transform -/

/-- C3 (counterexample): the re-casing function does not equal the spec's pure
transform on every key.  On `"textID"` the code's regex transform yields
`"text_id"` while "insert `_` before each uppercase letter except the first,
then lowercase" yields `"text_i_d"`. -/
theorem C3_rekey_counterexample :
    underscore "textID" = "text_id" ∧ specRekey "textID" = "text_i_d" ∧
    underscore "textID" ≠ specRekey "textID" := by
  refine ⟨rfl, rfl, ?_⟩
  intro h
  rw [show underscore "textID" = "text_id" from rfl,
    show specRekey "textID" = "text_i_d" from rfl] at h
  exact absurd h (by decide)

/-- C3 (amended): the regex-based re-casing function agrees with the spec's
pure transform on every hyphen-free key in which each uppercase letter after
the first character follows a lowercase letter or digit (every ordinary
camelCase/PascalCase key, in particular all upstream snippet keys); it is
idempotent on all keys; and it maps "authorDisplayName" to
"author_display_name" and "textOriginal" to "text_original". -/
theorem C3_rekey_amended :
    (∀ w : String, camelKey w.data = true → underscore w = specRekey w) ∧
    (∀ w : String, underscore (underscore w) = underscore w) ∧
    underscore "authorDisplayName" = "author_display_name" ∧
    underscore "textOriginal" = "text_original" :=
  ⟨underscore_eq_specRekey, underscore_idem, rfl, rfl⟩

/-- C3 (amended, witness): the agreement at the concrete camelCase key
"textDisplay", and idempotence at "textID". -/
theorem C3_rekey_amended_witness :
    underscore "textDisplay" = specRekey "textDisplay" ∧
    underscore (underscore "textID") = underscore "textID" :=
  ⟨C3_rekey_amended.1 "textDisplay" (by decide),
   C3_rekey_amended.2.1 "textID"⟩

end YCA
namespace YCA

/-! ### Claim C5: pagination -/

theorem retrieveLoop_chain (fetch : Option String → Page) (extra : Dict)
    (norm : Page → List (List Dict)) :
    ∀ (ps : List Page) (tok : Option String) (fuel : Nat) (acc : List Dict)
      (calls : List (Option String)),
      pageChain fetch tok ps →
      (∀ p ∈ ps, exceptMap (fun item => processItem item extra) p.items
        = Except.ok (norm p)) →
      ps.length ≤ fuel →
      retrieveLoop fetch extra fuel tok acc calls =
        some (Except.ok (acc ++ ps.flatMap (fun p => (norm p).flatten),
          calls ++ tok :: (ps.dropLast.map Page.nextPageToken)))
  | [], _, _, _, _, hchain, _, _ => absurd hchain (by rw [pageChain]; exact id)
  | [p], tok, fuel, acc, calls, hchain, hnorm, hfuel => by
      rw [pageChain] at hchain
      obtain ⟨hfetch, hlast⟩ := hchain
      cases fuel with
      | zero => exact absurd hfuel (by simp)
      | succ f =>
          rw [retrieveLoop, hfetch, hnorm p (by simp)]
          rw [show tokenFalsy p.nextPageToken = true from by rw [hlast]; rfl]
          simp

  | p :: q :: ps, tok, fuel, acc, calls, hchain, hnorm, hfuel => by
      rw [pageChain] at hchain
      obtain ⟨hfetch, ⟨t, hnext, hne⟩, hchain2⟩ := hchain
      cases fuel with
      | zero => exact absurd hfuel (by simp)
      | succ f =>
          have hnp := hnorm p (by simp)
          have htf : tokenFalsy p.nextPageToken = false := by
            rw [hnext, tokenFalsy]
            simpa using hne
          rw [retrieveLoop, hfetch]
          simp only [hnp, htf, Bool.false_eq_true, if_false]
          rw [retrieveLoop_chain fetch extra norm (q :: ps) p.nextPageToken f
            (acc ++ (norm p).flatten) (calls ++ [tok]) hchain2
            (fun r hr => hnorm r (List.mem_cons_of_mem p hr))
            (by simpa using hfuel)]
          rw [List.flatMap_cons, List.dropLast_cons₂, List.map_cons]
          simp

/-- C5: for a finite sequence of pages in which every page except the last
carries a continuation token and the last carries none, the retrieval loop
returns the concatenation of all pages' normalized comments in
page-then-item order, makes exactly one fetch per page — passing the first
call `none` and each later call the token of the previous page — and
terminates. -/
theorem C5_pagination (fetch : Option String → Page) (extra : Dict)
    (norm : Page → List (List Dict)) (ps : List Page) (fuel : Nat)
    (hchain : pageChain fetch none ps)
    (hnorm : ∀ p ∈ ps, exceptMap (fun item => processItem item extra) p.items
      = Except.ok (norm p))
    (hfuel : ps.length ≤ fuel) :
    retrieve_comments_from_youtube fetch extra fuel =
      some (Except.ok (ps.flatMap (fun p => (norm p).flatten),
        none :: (ps.dropLast.map Page.nextPageToken))) ∧
    (none :: (ps.dropLast.map Page.nextPageToken)).length = ps.length := by
  constructor
  · rw [retrieve_comments_from_youtube,
      retrieveLoop_chain fetch extra norm ps none fuel [] [] hchain hnorm hfuel]
    simp
  · cases ps with
    | nil => exact absurd hchain (by rw [pageChain]; exact id)
    | cons p ps2 =>
        rw [List.length_cons, List.length_cons, List.length_map,
          List.length_dropLast_cons]

/-- C5 (witness): two concrete pages, the first carrying token "T2". -/
theorem C5_pagination_witness :
    retrieve_comments_from_youtube
      (fun tok =>
        if tok = none then
          ⟨[⟨⟨"a1", [("textDisplay", JVal.str "x")], none⟩, none⟩], some "T2"⟩
        else ⟨[⟨⟨"b1", [("textDisplay", JVal.str "y")], none⟩, none⟩], none⟩)
      [] 2
    = some (Except.ok
        ([[("id", JVal.str "a1"), ("text_display", JVal.str "x"),
           ("parent_id", JVal.str "none"), ("author_channel_id", JVal.str "none")],
          [("id", JVal.str "b1"), ("text_display", JVal.str "y"),
           ("parent_id", JVal.str "none"), ("author_channel_id", JVal.str "none")]],
         [none, some "T2"])) := by
  have h := C5_pagination
    (fun tok =>
      if tok = none then
        ⟨[⟨⟨"a1", [("textDisplay", JVal.str "x")], none⟩, none⟩], some "T2"⟩
      else ⟨[⟨⟨"b1", [("textDisplay", JVal.str "y")], none⟩, none⟩], none⟩)
    []
    (fun p =>
      if p.nextPageToken = some "T2" then
        [[[("id", JVal.str "a1"), ("text_display", JVal.str "x"),
           ("parent_id", JVal.str "none"), ("author_channel_id", JVal.str "none")]]]
      else
        [[[("id", JVal.str "b1"), ("text_display", JVal.str "y"),
           ("parent_id", JVal.str "none"), ("author_channel_id", JVal.str "none")]]])
    [⟨[⟨⟨"a1", [("textDisplay", JVal.str "x")], none⟩, none⟩], some "T2"⟩,
     ⟨[⟨⟨"b1", [("textDisplay", JVal.str "y")], none⟩, none⟩], none⟩]
    2
    (by
      rw [pageChain]
      exact ⟨rfl, ⟨"T2", rfl, by decide⟩, by rw [pageChain]; exact ⟨rfl, rfl⟩⟩)
    (by
      intro p hp
      rcases List.mem_cons.mp hp with rfl | hp2
      · rfl
      · rcases List.mem_cons.mp hp2 with rfl | hp3
        · rfl
        · exact absurd hp3 (List.not_mem_nil p))
    (by decide)
  rw [h.1]
  rfl

end YCA
namespace YCA

/-! ### Batching lemmas -/

theorem exceptMap_ok_of_forall {α β : Type} (f : α → Except String β) (g : α → β) :
    ∀ l : List α, (∀ a ∈ l, f a = Except.ok (g a)) → exceptMap f l = Except.ok (l.map g)
  | [], _ => rfl
  | a :: l, h => by
      rw [exceptMap, h a (by simp),
        exceptMap_ok_of_forall f g l (fun x hx => h x (by simp [hx])), List.map_cons]

theorem batched_flatten {α : Type} (n : Nat) (hn : n ≠ 0) :
    ∀ l : List α, (batched l n).flatten = l
  | [] => by rw [batched]; rfl
  | x :: xs => by
      rw [batched, dif_neg hn, List.flatten_cons,
        batched_flatten n hn ((x :: xs).drop n), List.take_append_drop]
termination_by l => l.length
decreasing_by simp [List.length_drop]; omega

theorem mem_of_mem_batched {α : Type} (n : Nat) (hn : n ≠ 0) (l : List α)
    (b : List α) (hb : b ∈ batched l n) (x : α) (hx : x ∈ b) : x ∈ l := by
  rw [← batched_flatten n hn l]
  exact List.mem_flatten.mpr ⟨b, hb, hx⟩

theorem batched_map_length {α β : Type} (n : Nat) (hn : n ≠ 0) :
    ∀ (l : List α) (l2 : List β), l.length = l2.length →
      (batched l n).map List.length = (batched l2 n).map List.length
  | [], l2, h => by
      cases l2 with
      | nil => simp [batched]
      | cons y ys => simp at h
  | x :: xs, l2, h => by
      cases l2 with
      | nil => simp at h
      | cons y ys =>
          rw [batched, batched, dif_neg hn, dif_neg hn, List.map_cons, List.map_cons,
            batched_map_length n hn ((x :: xs).drop n) ((y :: ys).drop n)
              (by rw [List.length_drop, List.length_drop, h]),
            List.length_take, List.length_take, h]
termination_by l => l.length
decreasing_by simp [List.length_drop]; omega

theorem batchTexts_ok (tx : Dict → JVal) (b : List Dict)
    (htx : ∀ c ∈ b, dget c "text_display" = some (tx c)) :
    batchTexts b = Except.ok (b.map tx) := by
  rw [batchTexts]
  apply exceptMap_ok_of_forall _ tx b
  intro c hc
  rw [htx c hc]

/-- When every batch's response is no longer than the batch, the enrichment
loop succeeds and yields, per batch, the positional zip of the batch with its
response (comments beyond a short response are silently dropped). -/
theorem detectBatches_ok (svc : List JVal → List SentimentResult) (tx : Dict → JVal) :
    ∀ bs : List (List Dict),
      (∀ b ∈ bs, ∀ c ∈ b, dget c "text_display" = some (tx c)) →
      (∀ b ∈ bs, (svc (b.map tx)).length ≤ b.length) →
      detectBatches svc bs =
        Except.ok (bs.flatMap (fun b => List.zipWith mergeSentiment b (svc (b.map tx))))
  | [], _, _ => rfl
  | b :: bs, htx, hle => by
      rw [detectBatches, batchTexts_ok tx b (htx b (by simp))]
      simp only [mergeBatch]
      rw [if_pos (hle b (by simp)),
        detectBatches_ok svc tx bs
          (fun b2 hb2 => htx b2 (List.mem_cons_of_mem b hb2))
          (fun b2 hb2 => hle b2 (List.mem_cons_of_mem b hb2)),
        List.flatMap_cons]

/-- If some batch's response is strictly longer than the batch, the merge
loop's `batch[idx]` raises IndexError and the enrichment aborts. -/
theorem detectBatches_long_error (svc : List JVal → List SentimentResult)
    (tx : Dict → JVal) :
    ∀ bs : List (List Dict),
      (∀ b ∈ bs, ∀ c ∈ b, dget c "text_display" = some (tx c)) →
      (∃ b ∈ bs, b.length < (svc (b.map tx)).length) →
      ∃ e, detectBatches svc bs = Except.error e
  | [], _, hex => by
      obtain ⟨b, hb, _⟩ := hex
      exact absurd hb (List.not_mem_nil b)
  | b :: bs, htx, hex => by
      rw [detectBatches, batchTexts_ok tx b (htx b (by simp))]
      by_cases hb1 : (svc (b.map tx)).length ≤ b.length
      · simp only [mergeBatch]
        rw [if_pos hb1]
        obtain ⟨b2, hb2, hlong⟩ := hex
        rcases List.mem_cons.mp hb2 with rfl | hb3
        · omega
        · obtain ⟨e, he⟩ := detectBatches_long_error svc tx bs
            (fun b3 hb3x => htx b3 (List.mem_cons_of_mem b hb3x)) ⟨b2, hb3, hlong⟩
          rw [he]
          exact ⟨e, rfl⟩
      · simp only [mergeBatch]
        rw [if_neg hb1]
        exact ⟨"IndexError: tuple index out of range", rfl⟩

/-- Concatenating per-batch positional zips equals one positional zip of the
whole collection with the concatenated responses. -/
theorem flatMap_zipWith_eq_zipWith_flatten {α β γ : Type} (f : α → β → γ)
    (r : List α → List β) :
    ∀ bs : List (List α), (∀ b ∈ bs, (r b).length = b.length) →
      bs.flatMap (fun b => List.zipWith f b (r b))
        = List.zipWith f bs.flatten (bs.flatMap r)
  | [], _ => rfl
  | b :: bs, hr => by
      rw [List.flatMap_cons, List.flatMap_cons, List.flatten_cons,
        List.zipWith_append _ _ _ _ _ (hr b (by simp)).symm,
        flatMap_zipWith_eq_zipWith_flatten f r bs
          (fun b2 hb2 => hr b2 (List.mem_cons_of_mem b hb2))]

theorem zipWith_forall2 {α β γ : Type} (f : α → β → γ) (P : α → γ → Prop) :
    ∀ (l : List α) (l2 : List β), l2.length = l.length →
      (∀ a ∈ l, ∀ b, P a (f a b)) →
      List.Forall₂ P l (List.zipWith f l l2)
  | [], _, _, _ => by simp
  | a :: l, [], h, _ => by simp at h
  | a :: l, b :: l2, h, hP => by
      rw [List.zipWith_cons_cons]
      exact List.Forall₂.cons (hP a (by simp) b)
        (zipWith_forall2 f P l l2 (by simpa using h)
          (fun a2 ha2 b2 => hP a2 (by simp [ha2]) b2))

/-! ### Per-comment effect of the sentiment merge -/

theorem dget_mergeSentiment_id (c : Dict) (r : SentimentResult) :
    dget (mergeSentiment c r) "id" = dget c "id" := by
  rw [mergeSentiment, dget_dset_other _ _ _ _ (by decide),
    dget_dset_other _ _ _ _ (by decide), dget_dset_other _ _ _ _ (by decide),
    dget_dset_other _ _ _ _ (by decide)]

theorem dget_mergeSentiment_other (c : Dict) (r : SentimentResult) (k : String)
    (h1 : k ≠ "sentiment") (h2 : k ≠ "sentiment_score_positive")
    (h3 : k ≠ "sentiment_score_negative") (h4 : k ≠ "sentiment_score_neutral") :
    dget (mergeSentiment c r) k = dget c k := by
  rw [mergeSentiment, dget_dset_other _ _ _ _ h4, dget_dset_other _ _ _ _ h3,
    dget_dset_other _ _ _ _ h2, dget_dset_other _ _ _ _ h1]

theorem any_eq_false_of_dget_none (k : String) :
    ∀ d : Dict, dget d k = none → d.any (fun kv => kv.1 == k) = false
  | [], _ => rfl
  | kv :: d, h => by
      rw [dget_cons] at h
      cases hk : (kv.1 == k) with
      | true => rw [hk, if_pos rfl] at h; exact absurd h (by simp)
      | false =>
          rw [List.any_cons, hk, Bool.false_or]
          apply any_eq_false_of_dget_none k d
          rw [hk] at h
          simpa using h

theorem dkeys_dset_of_none (d : Dict) (k : String) (v : JVal)
    (h : dget d k = none) : dkeys (dset d k v) = dkeys d ++ [k] := by
  rw [dset, if_neg (by rw [any_eq_false_of_dget_none k d h]; simp), dkeys,
    List.map_append, dkeys]
  rfl

theorem mergeSentiment_dkeys (c : Dict) (r : SentimentResult)
    (h1 : dget c "sentiment" = none)
    (h2 : dget c "sentiment_score_positive" = none)
    (h3 : dget c "sentiment_score_negative" = none)
    (h4 : dget c "sentiment_score_neutral" = none) :
    dkeys (mergeSentiment c r) =
      dkeys c ++ ["sentiment", "sentiment_score_positive",
        "sentiment_score_negative", "sentiment_score_neutral"] := by
  have e1 := dkeys_dset_of_none c "sentiment" r.sentiment h1
  have g2 : dget (dset c "sentiment" r.sentiment) "sentiment_score_positive" = none := by
    rw [dget_dset_other _ _ _ _ (by decide)]
    exact h2
  have e2 := dkeys_dset_of_none _ "sentiment_score_positive" r.positive g2
  have g3 : dget (dset (dset c "sentiment" r.sentiment)
      "sentiment_score_positive" r.positive) "sentiment_score_negative" = none := by
    rw [dget_dset_other _ _ _ _ (by decide), dget_dset_other _ _ _ _ (by decide)]
    exact h3
  have e3 := dkeys_dset_of_none _ "sentiment_score_negative" r.negative g3
  have g4 : dget (dset (dset (dset c "sentiment" r.sentiment)
      "sentiment_score_positive" r.positive) "sentiment_score_negative" r.negative)
      "sentiment_score_neutral" = none := by
    rw [dget_dset_other _ _ _ _ (by decide), dget_dset_other _ _ _ _ (by decide),
      dget_dset_other _ _ _ _ (by decide)]
    exact h4
  have e4 := dkeys_dset_of_none _ "sentiment_score_neutral" r.neutral g4
  rw [mergeSentiment, e4, e3, e2, e1]
  simp

end YCA
namespace YCA

/-! ### Claim C6: batch partition and positional merge -/

theorem batched_nil {α : Type} (n : Nat) : batched ([] : List α) n = [] := by
  rw [batched]

theorem batched_cons_eq {α : Type} (l : List α) (n : Nat) (hn : n ≠ 0)
    (hne : l ≠ []) : batched l n = l.take n :: batched (l.drop n) n := by
  cases l with
  | nil => exact absurd rfl hne
  | cons x xs => rw [batched, dif_neg hn]

/-- C6: 101 comments with `batch_size=25` form exactly the batches
25,25,25,25,1 (contiguous, last shorter, never padded), and with per-batch
responses of matching length the enrichment merges the i-th result into the
i-th comment positionally: the output is the positional zip of the whole
collection with the concatenation of the per-batch responses, so no sentiment
value crosses a batch boundary. -/
theorem C6_batch_partition (svc : List JVal → List SentimentResult)
    (tx : Dict → JVal) (comments : List Dict)
    (hlen : comments.length = 101)
    (htx : ∀ c ∈ comments, dget c "text_display" = some (tx c))
    (hmatch : ∀ b ∈ batched comments 25, (svc (b.map tx)).length = b.length) :
    (batched comments 25).map List.length = [25, 25, 25, 25, 1] ∧
    batch_detect_sentiment svc comments 25 =
      Except.ok (List.zipWith mergeSentiment comments
        ((batched comments 25).flatMap (fun b => svc (b.map tx)))) := by
  constructor
  · have e1 := batched_cons_eq comments 25 (by decide)
      (by intro he; rw [he] at hlen; exact absurd hlen (by decide))
    have l1 : (comments.drop 25).length = 76 := by rw [List.length_drop, hlen]
    have e2 := batched_cons_eq (comments.drop 25) 25 (by decide)
      (by intro he; rw [he] at l1; exact absurd l1 (by decide))
    have l2 : ((comments.drop 25).drop 25).length = 51 := by
      rw [List.length_drop, l1]
    have e3 := batched_cons_eq ((comments.drop 25).drop 25) 25 (by decide)
      (by intro he; rw [he] at l2; exact absurd l2 (by decide))
    have l3 : (((comments.drop 25).drop 25).drop 25).length = 26 := by
      rw [List.length_drop, l2]
    have e4 := batched_cons_eq (((comments.drop 25).drop 25).drop 25) 25 (by decide)
      (by intro he; rw [he] at l3; exact absurd l3 (by decide))
    have l4 : ((((comments.drop 25).drop 25).drop 25).drop 25).length = 1 := by
      rw [List.length_drop, l3]
    have e5 := batched_cons_eq ((((comments.drop 25).drop 25).drop 25).drop 25) 25
      (by decide) (by intro he; rw [he] at l4; exact absurd l4 (by decide))
    have l5 : (((((comments.drop 25).drop 25).drop 25).drop 25).drop 25).length = 0 := by
      rw [List.length_drop, l4]
    rw [e1, e2, e3, e4, e5, List.eq_nil_of_length_eq_zero l5, batched_nil,
      List.map_cons, List.map_cons, List.map_cons, List.map_cons, List.map_cons,
      List.map_nil, List.length_take, List.length_take, List.length_take,
      List.length_take, List.length_take, hlen, l1, l2, l3, l4]
    decide
  · rw [batch_detect_sentiment,
      detectBatches_ok svc tx (batched comments 25)
        (fun b hb c hc => htx c (mem_of_mem_batched 25 (by decide) comments b hb c hc))
        (fun b hb => le_of_eq (hmatch b hb)),
      flatMap_zipWith_eq_zipWith_flatten mergeSentiment (fun b => svc (b.map tx))
        (batched comments 25) hmatch,
      batched_flatten 25 (by decide) comments]

/-- C6 (witness): 101 identical comments and a matching-length mock scorer. -/
theorem C6_batch_partition_witness :
    (batched (List.replicate 101 ([("text_display", JVal.str "t")] : Dict)) 25).map
        List.length = [25, 25, 25, 25, 1] ∧
    (batch_detect_sentiment
        (fun ts => ts.map (fun _ =>
          ⟨JVal.str "POSITIVE", JVal.int 1, JVal.int 0, JVal.int 0⟩))
        (List.replicate 101 [("text_display", JVal.str "t")]) 25).isOk = true := by
  have h := C6_batch_partition
    (fun ts => ts.map (fun _ =>
      ⟨JVal.str "POSITIVE", JVal.int 1, JVal.int 0, JVal.int 0⟩))
    (fun _ => JVal.str "t")
    (List.replicate 101 [("text_display", JVal.str "t")])
    (List.length_replicate 101 _)
    (by
      intro c hc
      rw [List.eq_of_mem_replicate hc]
      rfl)
    (by
      intro b _
      rw [List.length_map, List.length_map])
  exact ⟨h.1, by rw [h.2]; rfl⟩

/-! ### Claim C9: the enrichment frame -/

/-- C9: with matching per-batch response lengths, enrichment preserves the
length and order of the collection, and comment-wise (positionally, via
`List.Forall₂`) keeps `id` and every other pre-existing field unchanged,
adding exactly the four sentiment fields at the end. -/
theorem C9_enrichment_frame (svc : List JVal → List SentimentResult)
    (tx : Dict → JVal) (comments : List Dict) (n : Nat) (hn : n ≠ 0)
    (htx : ∀ c ∈ comments, dget c "text_display" = some (tx c))
    (hmatch : ∀ b ∈ batched comments n, (svc (b.map tx)).length = b.length)
    (hclean : ∀ c ∈ comments,
      dget c "sentiment" = none ∧
      dget c "sentiment_score_positive" = none ∧
      dget c "sentiment_score_negative" = none ∧
      dget c "sentiment_score_neutral" = none) :
    ∃ out, batch_detect_sentiment svc comments n = Except.ok out ∧
      out.length = comments.length ∧
      List.Forall₂ (fun c oc =>
        dget oc "id" = dget c "id" ∧
        (∀ k, k ≠ "sentiment" → k ≠ "sentiment_score_positive" →
          k ≠ "sentiment_score_negative" → k ≠ "sentiment_score_neutral" →
          dget oc k = dget c k) ∧
        dkeys oc = dkeys c ++ ["sentiment", "sentiment_score_positive",
          "sentiment_score_negative", "sentiment_score_neutral"]) comments out := by
  have hrlen : ((batched comments n).flatMap (fun b => svc (b.map tx))).length
      = comments.length := by
    conv_rhs => rw [← batched_flatten n hn comments]
    rw [List.length_flatMap, List.length_flatten]
    congr 1
    apply List.map_congr_left
    intro b hb
    rw [Function.comp_apply, hmatch b hb]
  refine ⟨List.zipWith mergeSentiment comments
      ((batched comments n).flatMap (fun b => svc (b.map tx))), ?_, ?_, ?_⟩
  · rw [batch_detect_sentiment,
      detectBatches_ok svc tx (batched comments n)
        (fun b hb c hc => htx c (mem_of_mem_batched n hn comments b hb c hc))
        (fun b hb => le_of_eq (hmatch b hb)),
      flatMap_zipWith_eq_zipWith_flatten mergeSentiment (fun b => svc (b.map tx))
        (batched comments n) hmatch,
      batched_flatten n hn comments]
  · rw [List.length_zipWith, hrlen, Nat.min_self]
  · apply zipWith_forall2 mergeSentiment _ comments _ hrlen
    intro c hc r
    obtain ⟨h1, h2, h3, h4⟩ := hclean c hc
    exact ⟨dget_mergeSentiment_id c r,
      fun k k1 k2 k3 k4 => dget_mergeSentiment_other c r k k1 k2 k3 k4,
      mergeSentiment_dkeys c r h1 h2 h3 h4⟩

/-- C9 (witness): three concrete comments, one batch of size 25. -/
theorem C9_enrichment_frame_witness :
    ∃ out, batch_detect_sentiment
        (fun ts => ts.map (fun _ =>
          ⟨JVal.str "NEUTRAL", JVal.int 0, JVal.int 0, JVal.int 1⟩))
        [[("id", JVal.str "a"), ("text_display", JVal.str "x")],
         [("id", JVal.str "b"), ("text_display", JVal.str "y")],
         [("id", JVal.str "c"), ("text_display", JVal.str "z")]] 25
      = Except.ok out ∧ out.length = 3 := by
  obtain ⟨out, hout, hlen, _⟩ := C9_enrichment_frame
    (fun ts => ts.map (fun _ =>
      ⟨JVal.str "NEUTRAL", JVal.int 0, JVal.int 0, JVal.int 1⟩))
    (fun c => (dget c "text_display").getD JVal.null)
    [[("id", JVal.str "a"), ("text_display", JVal.str "x")],
     [("id", JVal.str "b"), ("text_display", JVal.str "y")],
     [("id", JVal.str "c"), ("text_display", JVal.str "z")]]
    25 (by decide)
    (by
      intro c hc
      rcases List.mem_cons.mp hc with rfl | hc2
      · rfl
      · rcases List.mem_cons.mp hc2 with rfl | hc3
        · rfl
        · rcases List.mem_cons.mp hc3 with rfl | hc4
          · rfl
          · exact absurd hc4 (List.not_mem_nil c))
    (by
      intro b _
      rw [List.length_map, List.length_map])
    (by
      intro c hc
      rcases List.mem_cons.mp hc with rfl | hc2
      · exact ⟨rfl, rfl, rfl, rfl⟩
      · rcases List.mem_cons.mp hc2 with rfl | hc3
        · exact ⟨rfl, rfl, rfl, rfl⟩
        · rcases List.mem_cons.mp hc3 with rfl | hc4
          · exact ⟨rfl, rfl, rfl, rfl⟩
          · exact absurd hc4 (List.not_mem_nil c))
  exact ⟨out, hout, hlen⟩

end YCA
namespace YCA

/-! ### Claim C1: response-length mismatch -/

/-- C1 (counterexample): a scoring response of 24 results for a batch of 25
does NOT make enrichment fail — there is no length check and no
`ScoringServiceError` in the code.  Enrichment succeeds with 24 comments (the
25th is silently dropped) and the object-store write then happens. -/
theorem C1_counterexample :
    (batch_detect_sentiment
        (fun ts => (ts.drop 1).map
          (fun _ => ⟨JVal.str "POSITIVE", JVal.int 1, JVal.int 0, JVal.int 0⟩))
        (List.replicate 25 [("text_display", JVal.str "t")]) 25).map List.length
      = Except.ok 24 ∧
    (enrichAndStore
        (fun ts => (ts.drop 1).map
          (fun _ => ⟨JVal.str "POSITIVE", JVal.int 1, JVal.int 0, JVal.int 0⟩))
        [] "vid" (List.replicate 25 [("text_display", JVal.str "t")])).map
        (fun st => (storeGet st (s3Key "vid")).isSome)
      = Except.ok true := by
  have hb : batched (List.replicate 25 ([("text_display", JVal.str "t")] : Dict)) 25
      = [List.replicate 25 [("text_display", JVal.str "t")]] := by
    rw [batched_cons_eq _ 25 (by decide) (by simp),
      List.take_of_length_le (by simp), List.drop_eq_nil_of_le (by simp), batched_nil]
  constructor
  · rw [batch_detect_sentiment, hb]
    rfl
  · rw [enrichAndStore, batch_detect_sentiment, hb]
    rfl

/-- C1 (amended): the enricher performs no length check.  When a batch's
response is no longer than the batch, enrichment succeeds, merging result i
into comment i of the batch and silently dropping the comments beyond the
response (the output holds one comment per response entry), and the pipeline
proceeds to write the possibly-truncated collection to the object store.
Only when a response is strictly longer than its batch does an `IndexError`
propagate, in which case no write occurs. -/
theorem C1_scoring_mismatch_amended (svc : List JVal → List SentimentResult)
    (tx : Dict → JVal) (store : Store) (vid : String) (comments : List Dict)
    (htx : ∀ c ∈ comments, dget c "text_display" = some (tx c)) :
    ((∀ b ∈ batched comments 25, (svc (b.map tx)).length ≤ b.length) →
      ∃ out, batch_detect_sentiment svc comments 25 = Except.ok out ∧
        out.length
          = ((batched comments 25).map (fun b => (svc (b.map tx)).length)).sum ∧
        enrichAndStore svc store vid comments
          = Except.ok (upload_comments_to_s3 store out vid)) ∧
    ((∃ b ∈ batched comments 25, b.length < (svc (b.map tx)).length) →
      ∃ e, enrichAndStore svc store vid comments = Except.error e) := by
  have hmem : ∀ b ∈ batched comments 25, ∀ c ∈ b, dget c "text_display" = some (tx c) :=
    fun b hb c hc => htx c (mem_of_mem_batched 25 (by decide) comments b hb c hc)
  constructor
  · intro hle
    have hok := detectBatches_ok svc tx (batched comments 25) hmem hle
    refine ⟨(batched comments 25).flatMap
        (fun b => List.zipWith mergeSentiment b (svc (b.map tx))), ?_, ?_, ?_⟩
    · rw [batch_detect_sentiment, hok]
    · rw [List.length_flatMap]
      congr 1
      apply List.map_congr_left
      intro b hb
      rw [Function.comp_apply, List.length_zipWith, Nat.min_eq_right (hle b hb)]
    · rw [enrichAndStore, batch_detect_sentiment, hok]
  · intro hex
    obtain ⟨e, he⟩ := detectBatches_long_error svc tx (batched comments 25) hmem hex
    rw [enrichAndStore, batch_detect_sentiment, he]
    exact ⟨e, rfl⟩

/-- C1 (amended, witness): the truncation branch at the counterexample input:
24 responses for one batch of 25 give an output of 24 = the response count,
and the store write happens. -/
theorem C1_scoring_mismatch_amended_witness :
    ∃ out, batch_detect_sentiment
        (fun ts => (ts.drop 1).map
          (fun _ => ⟨JVal.str "POSITIVE", JVal.int 1, JVal.int 0, JVal.int 0⟩))
        (List.replicate 25 [("text_display", JVal.str "t")]) 25 = Except.ok out ∧
      out.length
        = ((batched (List.replicate 25 ([("text_display", JVal.str "t")] : Dict)) 25).map
            (fun b => (((b.map (fun _ => JVal.str "t")).drop 1).map
              (fun _ => (⟨JVal.str "POSITIVE", JVal.int 1, JVal.int 0, JVal.int 0⟩ :
                SentimentResult))).length)).sum ∧
      enrichAndStore
          (fun ts => (ts.drop 1).map
            (fun _ => ⟨JVal.str "POSITIVE", JVal.int 1, JVal.int 0, JVal.int 0⟩))
          [] "vid" (List.replicate 25 [("text_display", JVal.str "t")])
        = Except.ok (upload_comments_to_s3 [] out "vid") :=
  (C1_scoring_mismatch_amended
    (fun ts => (ts.drop 1).map
      (fun _ => ⟨JVal.str "POSITIVE", JVal.int 1, JVal.int 0, JVal.int 0⟩))
    (fun _ => JVal.str "t") [] "vid"
    (List.replicate 25 [("text_display", JVal.str "t")])
    (by
      intro c hc
      rw [List.eq_of_mem_replicate hc]
      rfl)).1
    (by
      intro b _
      rw [List.length_map, List.length_drop, List.length_map]
      omega)

end YCA
namespace YCA

/-! ### Claim C8: the REMOVE invocation -/

theorem storeDelete_absent : ∀ (store : Store) (k : String),
    storeGet store k = none → storeDelete store k = store
  | [], _, _ => rfl
  | kv :: store, k, h => by
      rw [storeGet] at h
      cases hk : (kv.1 == k) with
      | true => simp [List.find?_cons, hk] at h
      | false =>
          rw [storeDelete, List.filter_cons_of_pos (by simp [hk])]
          have h2 := storeDelete_absent store k (by
            rw [storeGet]
            simp only [List.find?_cons, hk] at h
            simpa using h)
          rw [storeDelete] at h2
          rw [h2]

/-- C8 (counterexample): the literal invocation input
`{video_id: "abc123", action: "REMOVE"}` does not return — the pydantic
`Event` model also requires `execution_id`, so event parsing fails and the
handler raises a validation error before any store operation. -/
theorem C8_counterexample :
    lambda_handler (fun st _ => Except.ok (st, [])) []
        [("video_id", JVal.str "abc123"), ("action", JVal.str "REMOVE")]
      = Except.error "ValidationError: missing or non-string field" := rfl

/-- C8 (amended): with the required `execution_id` supplied, the REMOVE
invocation for `video_id "abc123"` on a store without the object completes
successfully — deleting a non-existent key is a no-op, not an error — and
returns exactly `{"action": "REMOVE", "video_id": "abc123"}`. -/
theorem C8_remove_amended (insertPath : Store → Event → Except String (Store × Dict))
    (store : Store) (eid : String)
    (hkey : storeGet store (s3Key "abc123") = none) :
    lambda_handler insertPath store
        [("video_id", JVal.str "abc123"), ("action", JVal.str "REMOVE"),
         ("execution_id", JVal.str eid)]
      = Except.ok (store,
          [("action", JVal.str "REMOVE"), ("video_id", JVal.str "abc123")]) := by
  have hparse : parseEvent
      [("video_id", JVal.str "abc123"), ("action", JVal.str "REMOVE"),
       ("execution_id", JVal.str eid)]
      = Except.ok ⟨"abc123", Action.REMOVE, eid⟩ := rfl
  simp only [lambda_handler, hparse]
  rw [remove_comments_from_s3, storeDelete_absent store _ hkey]

/-- C8 (amended, witness): a concrete store holding only an unrelated key. -/
theorem C8_remove_amended_witness :
    lambda_handler (fun st _ => Except.ok (st, [])) [("other", "x")]
        [("video_id", JVal.str "abc123"), ("action", JVal.str "REMOVE"),
         ("execution_id", JVal.str "e1")]
      = Except.ok ([("other", "x")],
          [("action", JVal.str "REMOVE"), ("video_id", JVal.str "abc123")]) :=
  C8_remove_amended (fun st _ => Except.ok (st, [])) [("other", "x")] "e1" rfl

end YCA
namespace YCA

/-! ### Digit and hex characters -/

theorem decDigit_spec_all :
    ∀ k < 10, (Char.ofNat (48 + k)).toNat = 48 + k
      ∧ (Char.ofNat (48 + k)).isDigit = true := by
  decide

theorem decDigit_spec (k : Nat) (h : k < 10) :
    (Char.ofNat (48 + k)).toNat = 48 + k ∧ (Char.ofNat (48 + k)).isDigit = true :=
  decDigit_spec_all k h

theorem hexVal_hexDigitChar_all : ∀ k < 16, hexVal (hexDigitChar k) = some k := by
  decide

theorem hexVal_hexDigitChar (k : Nat) (h : k < 16) :
    hexVal (hexDigitChar k) = some k :=
  hexVal_hexDigitChar_all k h

theorem hexDigitChar_ne_nl_all : ∀ k < 16, hexDigitChar k ≠ '\n' := by
  decide

theorem hexDigitChar_ne_nl (k : Nat) (h : k < 16) : hexDigitChar k ≠ '\n' :=
  hexDigitChar_ne_nl_all k h

/-! ### Decimal digit runs -/

theorem natDigits_eq (n : Nat) :
    natDigits n = if n < 10 then [Char.ofNat (48 + n)]
      else natDigits (n / 10) ++ [Char.ofNat (48 + n % 10)] := by
  rw [natDigits]

theorem natDigits_ne_nil (n : Nat) : natDigits n ≠ [] := by
  rw [natDigits_eq]
  split <;> simp

theorem natDigits_all_digit (n : Nat) : ∀ c ∈ natDigits n, c.isDigit = true := by
  induction n using Nat.strong_induction_on with
  | _ n ih =>
      rw [natDigits_eq]
      split
      · rename_i h
        intro c hc
        rw [List.mem_singleton] at hc
        subst hc
        exact (decDigit_spec n h).2
      · rename_i h
        intro c hc
        rcases List.mem_append.mp hc with hc2 | hc2
        · exact ih (n / 10) (Nat.div_lt_self (by omega) (by omega)) c hc2
        · rw [List.mem_singleton] at hc2
          subst hc2
          exact (decDigit_spec (n % 10) (Nat.mod_lt n (by omega))).2

theorem digitSpan_stop (cs : List Char) (h : numBoundary cs = true) :
    digitSpan cs = ([], cs) := by
  cases cs with
  | nil => rfl
  | cons c rest =>
      rw [numBoundary] at h
      rw [digitSpan, if_neg]
      simpa using h

theorem digitSpan_run :
    ∀ ds : List Char, (∀ c ∈ ds, c.isDigit = true) →
      ∀ rest : List Char, numBoundary rest = true →
        digitSpan (ds ++ rest) = (ds, rest)
  | [], _, rest, hrest => by rw [List.nil_append, digitSpan_stop rest hrest]
  | d :: ds, hds, rest, hrest => by
      rw [List.cons_append, digitSpan, if_pos (hds d (by simp)),
        digitSpan_run ds (fun c hc => hds c (by simp [hc])) rest hrest]

theorem digitsVal_natDigits (n : Nat) : digitsVal (natDigits n) = n := by
  induction n using Nat.strong_induction_on with
  | _ n ih =>
      rw [natDigits_eq]
      split
      · rename_i h
        rw [digitsVal, List.foldl_cons, List.foldl_nil, (decDigit_spec n h).1]
        omega
      · rename_i h
        rw [digitsVal, List.foldl_append, List.foldl_cons, List.foldl_nil]
        have hfold := ih (n / 10) (Nat.div_lt_self (by omega) (by omega))
        rw [digitsVal] at hfold
        rw [hfold, (decDigit_spec (n % 10) (Nat.mod_lt n (by omega))).1]
        omega

theorem natDigits_head (n : Nat) :
    ∃ c t, natDigits n = c :: t ∧ c.isDigit = true := by
  cases hd : natDigits n with
  | nil => exact absurd hd (natDigits_ne_nil n)
  | cons c t =>
      refine ⟨c, t, rfl, natDigits_all_digit n c ?_⟩
      rw [hd]
      simp

end YCA
namespace YCA

/-! ### String escaping and its inverse -/

theorem char_valid_toNat (c : Char) :
    c.toNat < 55296 ∨ (57343 < c.toNat ∧ c.toNat < 1114112) := c.valid

theorem escapeChar_no_nl (c : Char) : '\n' ∉ escapeChar c := by
  rw [escapeChar]
  split
  · decide
  · split
    · decide
    · split
      · decide
      · split
        · decide
        · split
          · decide
          · split
            · decide
            · split
              · decide
              · split
                · rename_i h8
                  intro hmem
                  rw [List.mem_singleton] at hmem
                  subst hmem
                  exact absurd h8 (by decide)
                · split
                  · intro hmem
                    rcases List.mem_cons.mp hmem with h | hmem2
                    · exact absurd h.symm (by decide)
                    · rcases List.mem_cons.mp hmem2 with h | hmem3
                      · exact absurd h.symm (by decide)
                      · rw [hex4] at hmem3
                        rcases List.mem_cons.mp hmem3 with h | hmem4
                        · exact hexDigitChar_ne_nl _ (Nat.mod_lt _ (by omega)) h.symm
                        · rcases List.mem_cons.mp hmem4 with h | hmem5
                          · exact hexDigitChar_ne_nl _ (Nat.mod_lt _ (by omega)) h.symm
                          · rcases List.mem_cons.mp hmem5 with h | hmem6
                            · exact hexDigitChar_ne_nl _ (Nat.mod_lt _ (by omega)) h.symm
                            · rw [List.mem_singleton] at hmem6
                              exact hexDigitChar_ne_nl _ (Nat.mod_lt _ (by omega)) hmem6.symm
                  · intro hmem
                    rw [List.cons_append, List.cons_append] at hmem
                    rcases List.mem_cons.mp hmem with h | hmem2
                    · exact absurd h.symm (by decide)
                    · rcases List.mem_cons.mp hmem2 with h | hmem3
                      · exact absurd h.symm (by decide)
                      · rw [List.mem_append] at hmem3
                        rcases hmem3 with hmem4 | hmem4
                        · rw [hex4] at hmem4
                          rcases List.mem_cons.mp hmem4 with h | hmem5
                          · exact hexDigitChar_ne_nl _ (Nat.mod_lt _ (by omega)) h.symm
                          · rcases List.mem_cons.mp hmem5 with h | hmem6
                            · exact hexDigitChar_ne_nl _ (Nat.mod_lt _ (by omega)) h.symm
                            · rcases List.mem_cons.mp hmem6 with h | hmem7
                              · exact hexDigitChar_ne_nl _ (Nat.mod_lt _ (by omega)) h.symm
                              · rw [List.mem_singleton] at hmem7
                                exact hexDigitChar_ne_nl _ (Nat.mod_lt _ (by omega)) hmem7.symm
                        · rcases List.mem_cons.mp hmem4 with h | hmem5
                          · exact absurd h.symm (by decide)
                          · rcases List.mem_cons.mp hmem5 with h | hmem6
                            · exact absurd h.symm (by decide)
                            · rw [hex4] at hmem6
                              rcases List.mem_cons.mp hmem6 with h | hmem7
                              · exact hexDigitChar_ne_nl _ (Nat.mod_lt _ (by omega)) h.symm
                              · rcases List.mem_cons.mp hmem7 with h | hmem8
                                · exact hexDigitChar_ne_nl _ (Nat.mod_lt _ (by omega)) h.symm
                                · rcases List.mem_cons.mp hmem8 with h | hmem9
                                  · exact hexDigitChar_ne_nl _ (Nat.mod_lt _ (by omega)) h.symm
                                  · rw [List.mem_singleton] at hmem9
                                    exact hexDigitChar_ne_nl _ (Nat.mod_lt _ (by omega)) hmem9.symm

theorem escapeString_no_nl (s : String) : '\n' ∉ escapeString s := by
  rw [escapeString]
  intro h
  obtain ⟨c, _, hc⟩ := List.mem_flatMap.mp h
  exact escapeChar_no_nl c hc


/-! ### The string-escape inverse -/

theorem hexAssemble (w : Nat) (hw : w < 65536) :
    ((w / 4096 % 16 * 16 + w / 256 % 16) * 16 + w / 16 % 16) * 16 + w % 16 = w := by
  omega

theorem parseHex4_hex4 (n : Nat) (rest : List Char) (hn : n < 65536) :
    parseHex4 (hex4 n ++ rest) = some (n, rest) := by
  have ha := hexVal_hexDigitChar (n / 4096 % 16) (Nat.mod_lt _ (by omega))
  have hb := hexVal_hexDigitChar (n / 256 % 16) (Nat.mod_lt _ (by omega))
  have hc := hexVal_hexDigitChar (n / 16 % 16) (Nat.mod_lt _ (by omega))
  have hd := hexVal_hexDigitChar (n % 16) (Nat.mod_lt _ (by omega))
  simp only [hex4, List.cons_append, List.nil_append, parseHex4, ha, hb, hc, hd]
  rw [hexAssemble n hn]

theorem parseLowSurrogate_hex4 (n m : Nat) (hm1 : 56320 ≤ m) (hm2 : m < 57344)
    (rest : List Char) :
    parseLowSurrogate n ('\\' :: 'u' :: (hex4 m ++ rest))
      = some (65536 + (n - 55296) * 1024 + (m - 56320), rest) := by
  rw [parseLowSurrogate]
  simp [parseHex4_hex4 m rest (by omega), hm1, hm2]

theorem parseQuoted_succ (fuel : Nat) (c : Char) (rest acc : List Char) :
    parseQuoted (fuel + 1) (c :: rest) acc =
      (if c = '"' then some (⟨acc.reverse⟩, rest)
       else if c = '\\' then
        match rest with
        | [] => none
        | e :: rest2 =>
            if e = 'u' then
              match parseHex4 rest2 with
              | some (n, rest3) =>
                  if n < 55296 ∨ 57344 ≤ n then
                    parseQuoted fuel rest3 (Char.ofNat n :: acc)
                  else if n < 56320 then
                    match parseLowSurrogate n rest3 with
                    | some (m, rest4) =>
                        parseQuoted fuel rest4 (Char.ofNat m :: acc)
                    | none => none
                  else none
              | none => none
            else
              match unescapeShort e with
              | some ch => parseQuoted fuel rest2 (ch :: acc)
              | none => none
      else parseQuoted fuel rest (c :: acc)) := rfl

theorem parseQuoted_u (fuel n : Nat) (hn : n < 65536) (hv : n < 55296 ∨ 57344 ≤ n)
    (rest acc : List Char) :
    parseQuoted (fuel + 1) ('\\' :: 'u' :: (hex4 n ++ rest)) acc
      = parseQuoted fuel rest (Char.ofNat n :: acc) := by
  rw [parseQuoted_succ, if_neg (by decide), if_pos rfl]
  simp [parseHex4_hex4 n rest hn, eq_true hv]

theorem parseQuoted_uPair (fuel n m : Nat) (hn1 : 55296 ≤ n) (hn2 : n < 56320)
    (hm1 : 56320 ≤ m) (hm2 : m < 57344) (rest acc : List Char) :
    parseQuoted (fuel + 1)
      ('\\' :: 'u' :: (hex4 n ++ ('\\' :: 'u' :: (hex4 m ++ rest)))) acc
      = parseQuoted fuel rest
          (Char.ofNat (65536 + (n - 55296) * 1024 + (m - 56320)) :: acc) := by
  rw [parseQuoted_succ, if_neg (by decide), if_pos rfl]
  have hv : (n < 55296 ∨ 57344 ≤ n) = False := eq_false (by omega)
  simp [parseHex4_hex4 n _ (by omega), hv, eq_true hn2,
    parseLowSurrogate_hex4 n m hm1 hm2 rest]

theorem parseQuoted_escapeChar (c : Char) (fuel : Nat) (acc rest : List Char) :
    parseQuoted (fuel + 1) (escapeChar c ++ rest) acc
      = parseQuoted fuel rest (c :: acc) := by
  rw [escapeChar]
  split
  · rename_i h
    subst h
    rw [List.cons_append, List.cons_append, List.nil_append, parseQuoted_succ,
      if_neg (by decide), if_pos rfl]
    rfl
  · split
    · rename_i h
      subst h
      rw [List.cons_append, List.cons_append, List.nil_append, parseQuoted_succ,
        if_neg (by decide), if_pos rfl]
      rfl
    · split
      · rename_i h
        subst h
        rw [List.cons_append, List.cons_append, List.nil_append, parseQuoted_succ,
          if_neg (by decide), if_pos rfl]
        rfl
      · split
        · rename_i h
          subst h
          rw [List.cons_append, List.cons_append, List.nil_append, parseQuoted_succ,
            if_neg (by decide), if_pos rfl]
          rfl
        · split
          · rename_i h
            subst h
            rw [List.cons_append, List.cons_append, List.nil_append, parseQuoted_succ,
              if_neg (by decide), if_pos rfl]
            rfl
          · split
            · rename_i h8
              have hc : c = Char.ofNat 8 := by
                apply toNat_inj
                rw [h8]
                decide
              subst hc
              rw [List.cons_append, List.cons_append, List.nil_append, parseQuoted_succ,
                if_neg (by decide), if_pos rfl]
              rfl
            · split
              · rename_i h12
                have hc : c = Char.ofNat 12 := by
                  apply toNat_inj
                  rw [h12]
                  decide
                subst hc
                rw [List.cons_append, List.cons_append, List.nil_append, parseQuoted_succ,
                  if_neg (by decide), if_pos rfl]
                rfl
              · split
                · rename_i hq hbs hnl htb hcr h8 h12 hpr
                  rw [List.singleton_append, parseQuoted_succ, if_neg hq, if_neg hbs]
                · split
                  · rename_i hbmp
                    have hv : c.toNat < 55296 ∨ 57344 ≤ c.toNat := by
                      rcases char_valid_toNat c with h | h
                      · exact Or.inl h
                      · exact Or.inr (by omega)
                    simp only [List.cons_append]
                    rw [parseQuoted_u fuel c.toNat hbmp hv, Char.ofNat_toNat]
                  · rename_i hbig
                    have hlt : c.toNat < 1114112 := by
                      rcases char_valid_toNat c with h | h
                      · omega
                      · omega
                    simp only [List.cons_append, List.append_assoc]
                    rw [parseQuoted_uPair fuel (55296 + (c.toNat - 65536) / 1024)
                      (56320 + (c.toNat - 65536) % 1024) (by omega) (by omega)
                      (by omega) (by omega)]
                    have hcomb : 65536 +
                        (55296 + (c.toNat - 65536) / 1024 - 55296) * 1024 +
                        (56320 + (c.toNat - 65536) % 1024 - 56320) = c.toNat := by
                      omega
                    rw [hcomb, Char.ofNat_toNat]

theorem parseQuoted_escapeString (cs : List Char) :
    ∀ (fuel : Nat) (acc rest : List Char),
      parseQuoted (cs.length + fuel + 1) (cs.flatMap escapeChar ++ '"' :: rest) acc
        = some (⟨acc.reverse ++ cs⟩, rest) := by
  induction cs with
  | nil =>
      intro fuel acc rest
      rw [List.flatMap_nil, List.nil_append, List.length_nil, Nat.zero_add,
        parseQuoted_succ, if_pos rfl]
      simp
  | cons c cs ih =>
      intro fuel acc rest
      have hfuel : (c :: cs).length + fuel + 1 = (cs.length + fuel + 1) + 1 := by
        simp [List.length_cons]
        omega
      rw [hfuel, List.flatMap_cons, List.append_assoc, parseQuoted_escapeChar, ih]
      simp

theorem parseQuoted_dumpString (s : String) (fuel : Nat) (rest : List Char) :
    parseQuoted (s.data.length + fuel + 1)
      (escapeString s ++ '"' :: rest) [] = some (s, rest) := by
  rw [escapeString, parseQuoted_escapeString]
  simp


/-! ### Dump heads, whitespace, and fuel bookkeeping -/

theorem dropWs_not_ws {c : Char} (h : isWsChar c = false) (l : List Char) :
    dropWs (c :: l) = c :: l := by
  rw [dropWs, if_neg]
  simp [h]

theorem dropWs_space (l : List Char) : dropWs (' ' :: l) = dropWs l := by
  rw [dropWs, if_pos]
  rfl

theorem isDigit_toNat {c : Char} (h : c.isDigit = true) :
    48 ≤ c.toNat ∧ c.toNat ≤ 57 := by
  rw [Char.isDigit] at h
  simp only [Bool.and_eq_true, decide_eq_true_eq] at h
  exact h

theorem isWsChar_false_of_digit {c : Char} (h : c.isDigit = true) :
    isWsChar c = false := by
  have hb := isDigit_toNat h
  rw [isWsChar]
  simp only [Bool.or_eq_false_iff, beq_eq_false_iff_ne]
  refine ⟨⟨⟨fun hc => ?_, fun hc => ?_⟩, fun hc => ?_⟩, fun hc => ?_⟩ <;>
    (rw [hc] at hb; exact absurd hb (by decide))

theorem digit_ne_rbracket {c : Char} (h : c.isDigit = true) : c ≠ ']' := by
  intro hc
  rw [hc] at h
  exact absurd h (by decide)

theorem jsize_pos (v : JVal) : 1 ≤ jsize v := by
  cases v <;> rw [jsize] <;> omega

theorem dumpVal_head (v : JVal) :
    ∃ c cs, dumpVal v = c :: cs ∧ isWsChar c = false ∧ c ≠ ']' := by
  cases v with
  | null => exact ⟨'n', _, by rw [dumpVal], by decide, by decide⟩
  | bool b =>
      cases b with
      | true => exact ⟨'t', _, by rw [dumpVal], by decide, by decide⟩
      | false => exact ⟨'f', _, by rw [dumpVal], by decide, by decide⟩
  | int n =>
      rw [dumpVal, intChars]
      split
      · exact ⟨'-', _, rfl, by decide, by decide⟩
      · obtain ⟨c, t, hct, hdig⟩ := natDigits_head n.natAbs
        exact ⟨c, t, hct, isWsChar_false_of_digit hdig, digit_ne_rbracket hdig⟩
  | str s => exact ⟨'"', _, by rw [dumpVal, dumpString], by decide, by decide⟩
  | arr xs => exact ⟨'[', _, by rw [dumpVal], by decide, by decide⟩
  | obj fs => exact ⟨lbrace, _, by rw [dumpVal], by decide, by decide⟩

theorem dropWs_dumpVal (v : JVal) (rest : List Char) :
    dropWs (dumpVal v ++ rest) = dumpVal v ++ rest := by
  obtain ⟨c, cs, hd, hws, _⟩ := dumpVal_head v
  rw [hd, List.cons_append, dropWs_not_ws hws]

theorem escapeChar_length_pos (c : Char) : 1 ≤ (escapeChar c).length := by
  rw [escapeChar]
  split
  · decide
  · split
    · decide
    · split
      · decide
      · split
        · decide
        · split
          · decide
          · split
            · decide
            · split
              · decide
              · split
                · simp
                · split
                  · simp [hex4]
                  · simp [hex4]

theorem escapeString_length_ge (s : String) :
    s.data.length ≤ (escapeString s).length := by
  rw [escapeString]
  induction s.data with
  | nil => simp
  | cons c cs ih =>
      rw [List.flatMap_cons, List.length_append, List.length_cons]
      have := escapeChar_length_pos c
      omega

theorem parseQuoted_dumpString_le (s : String) (rest : List Char) (F : Nat)
    (hF : s.data.length + 1 ≤ F) :
    parseQuoted F (escapeString s ++ '"' :: rest) [] = some (s, rest) := by
  have h : F = s.data.length + (F - s.data.length - 1) + 1 := by omega
  rw [h, parseQuoted_dumpString]

/-! ### Rebuilding an object with distinct keys restores the field list -/

theorem keysDistinct_head {k : String} {ks : List String}
    (h : keysDistinct (k :: ks) = true) : k ∉ ks ∧ keysDistinct ks = true := by
  rw [keysDistinct, Bool.and_eq_true, Bool.not_eq_true'] at h
  refine ⟨fun hm => ?_, h.2⟩
  have hc : ks.contains k = true := List.elem_iff.mpr hm
  rw [hc] at h
  exact absurd h.1 (by decide)

theorem dset_absent (d : Dict) (k : String) (v : JVal)
    (h : ∀ kv ∈ d, kv.1 ≠ k) : dset d k v = d ++ [(k, v)] := by
  rw [dset, if_neg]
  simp only [List.any_eq_true, beq_iff_eq, not_exists, not_and]
  exact h

theorem foldl_dset_append (fs : List (String × JVal)) :
    ∀ d : Dict, keysDistinct (fs.map (fun kv => kv.1)) = true →
    (∀ kv ∈ d, ∀ kv2 ∈ fs, kv.1 ≠ kv2.1) →
    fs.foldl (fun d kv => dset d kv.1 kv.2) d = d ++ fs := by
  induction fs with
  | nil =>
      intro d _ _
      simp
  | cons kv fs ih =>
      intro d hdist hfresh
      rw [List.map_cons] at hdist
      obtain ⟨hknot, hdist2⟩ := keysDistinct_head hdist
      rw [List.foldl_cons, dset_absent d kv.1 kv.2
        (fun kv2 h2 => hfresh kv2 h2 kv (by simp))]
      rw [ih (d ++ [(kv.1, kv.2)]) hdist2 ?_]
      · simp
      · intro kv2 h2 kv3 h3
        rcases List.mem_append.mp h2 with h2a | h2b
        · exact hfresh kv2 h2a kv3 (by simp [h3])
        · have hkv2 : kv2 = (kv.1, kv.2) := by simpa using h2b
          subst hkv2
          intro hkk
          exact hknot (by
            simp only [List.mem_map]
            exact ⟨kv3, h3, hkk.symm⟩)

theorem foldl_dset_nodup (fs : List (String × JVal))
    (h : keysDistinct (fs.map (fun kv => kv.1)) = true) :
    fs.foldl (fun d kv => dset d kv.1 kv.2) [] = fs := by
  rw [foldl_dset_append fs [] h (by simp)]
  simp


/-! ### Store, line splitting, and serialized-output facts -/

theorem storeGet_storePut (s : Store) (k : String) (v : String) :
    storeGet (storePut s k v) k = some v := by
  rw [storePut]
  split
  · rename_i hany
    induction s with
    | nil => simp at hany
    | cons kv s ih =>
        rw [List.map_cons, storeGet, List.find?_cons]
        cases hk : (kv.1 == k) with
        | true => simp [hk]
        | false =>
            simp only [hk, Bool.false_eq_true, if_false]
            simp only [List.any_cons, hk, Bool.false_or] at hany
            simpa [storeGet] using ih hany
  · rw [storeGet]
    induction s with
    | nil =>
        simp only [List.nil_append, List.find?_cons, beq_self_eq_true]
        rfl
    | cons kv s ih =>
        rename_i hany
        simp only [List.any_cons, Bool.or_eq_true, not_or] at hany
        rw [List.cons_append, List.find?_cons]
        cases hk : (kv.1 == k) with
        | true => exact absurd hk (by simpa using hany.1)
        | false =>
            simp only [hk, Bool.false_eq_true, if_false]
            exact ih (by simpa using hany.2)

theorem exceptMap_map_ok {α β γ : Type} (f : β → Except String γ) (g : α → β)
    (h : α → γ) (xs : List α) (hok : ∀ x ∈ xs, f (g x) = .ok (h x)) :
    exceptMap f (xs.map g) = .ok (xs.map h) := by
  induction xs with
  | nil => rfl
  | cons x xs ih =>
      rw [List.map_cons, exceptMap, hok x (by simp),
        ih (fun y hy => hok y (by simp [hy])), List.map_cons]

theorem splitNl_no_nl (l : List Char) (h : '\n' ∉ l) : splitNl l = [l] := by
  induction l with
  | nil => rfl
  | cons c cs ih =>
      rw [splitNl, if_neg (by simp at h; exact fun hc => h.1 hc.symm)]
      rw [ih (by simp at h; exact h.2)]

theorem splitNl_append_nl (l : List Char) (h : '\n' ∉ l) (r : List Char) :
    splitNl (l ++ '\n' :: r) = l :: splitNl r := by
  induction l with
  | nil =>
      rw [List.nil_append, splitNl, if_pos rfl]
  | cons c cs ih =>
      rw [List.cons_append, splitNl, if_neg (by simp at h; exact fun hc => h.1 hc.symm)]
      rw [ih (by simp at h; exact h.2)]

theorem splitNl_joinNl (ls : List (List Char)) (hne : ls ≠ [])
    (h : ∀ l ∈ ls, '\n' ∉ l) : splitNl (joinNl ls) = ls := by
  induction ls with
  | nil => exact absurd rfl hne
  | cons l ls ih =>
      cases ls with
      | nil =>
          rw [joinNl, splitNl_no_nl l (h l (by simp))]
      | cons l2 t =>
          rw [joinNl, splitNl_append_nl l (h l (by simp))]
          rw [ih (by simp) (fun x hx => h x (by simp [hx]))]

mutual
theorem dumpVal_no_nl (v : JVal) : '\n' ∉ dumpVal v := by
  cases v with
  | null => rw [dumpVal]; decide
  | bool b => cases b <;> (rw [dumpVal]; decide)
  | int n =>
      rw [dumpVal, intChars]
      have hd : '\n' ∉ natDigits n.natAbs := by
        intro hm
        have := natDigits_all_digit n.natAbs '\n' hm
        exact absurd this (by decide)
      split
      · simp only [List.mem_cons]
        rintro (hc | hc)
        · exact absurd hc (by decide)
        · exact hd hc
      · exact hd
  | str s =>
      rw [dumpVal, dumpString]
      simp only [List.mem_cons, List.mem_append, List.mem_singleton]
      rintro (hc | hc | hc)
      · exact absurd hc (by decide)
      · exact escapeString_no_nl s hc
      · exact absurd hc (by decide)
  | arr xs =>
      rw [dumpVal]
      simp only [List.mem_cons, List.mem_append, List.mem_singleton]
      rintro (hc | hc | hc)
      · exact absurd hc (by decide)
      · exact dumpArr_no_nl xs hc
      · exact absurd hc (by decide)
  | obj fs =>
      rw [dumpVal]
      simp only [List.mem_cons, List.mem_append, List.mem_singleton]
      rintro (hc | hc | hc)
      · exact absurd hc (by decide)
      · exact dumpObj_no_nl fs hc
      · exact absurd hc (by decide)

theorem dumpArr_no_nl (xs : List JVal) : '\n' ∉ dumpArr xs := by
  cases xs with
  | nil => rw [dumpArr]; simp
  | cons x t =>
      cases t with
      | nil => rw [dumpArr]; exact dumpVal_no_nl x
      | cons y t2 =>
          rw [dumpArr]
          simp only [List.mem_append, List.mem_cons]
          rintro (hc | hc | hc | hc)
          · exact dumpVal_no_nl x hc
          · exact absurd hc (by decide)
          · exact absurd hc (by decide)
          · exact dumpArr_no_nl (y :: t2) hc

theorem dumpObj_no_nl (fs : List (String × JVal)) : '\n' ∉ dumpObj fs := by
  cases fs with
  | nil => rw [dumpObj]; simp
  | cons kv t =>
      cases t with
      | nil =>
          rw [dumpObj]
          simp only [List.mem_append, List.mem_cons]
          rintro (hc | hc | hc | hc)
          · rw [dumpString] at hc
            simp only [List.mem_cons, List.mem_append, List.mem_singleton] at hc
            rcases hc with hc | hc | hc
            · exact absurd hc (by decide)
            · exact escapeString_no_nl kv.1 hc
            · exact absurd hc (by decide)
          · exact absurd hc (by decide)
          · exact absurd hc (by decide)
          · exact dumpVal_no_nl kv.2 hc
      | cons kv2 t2 =>
          rw [dumpObj]
          simp only [List.mem_append, List.mem_cons]
          rintro ((hc | hc | hc | hc) | hc | hc | hc)
          · rw [dumpString] at hc
            simp only [List.mem_cons, List.mem_append, List.mem_singleton] at hc
            rcases hc with hc | hc | hc
            · exact absurd hc (by decide)
            · exact escapeString_no_nl kv.1 hc
            · exact absurd hc (by decide)
          · exact absurd hc (by decide)
          · exact absurd hc (by decide)
          · exact dumpVal_no_nl kv.2 hc
          · exact absurd hc (by decide)
          · exact absurd hc (by decide)
          · exact dumpObj_no_nl (kv2 :: t2) hc

end

mutual
theorem jsize_le_dump (v : JVal) : jsize v ≤ (dumpVal v).length := by
  cases v with
  | null => rw [jsize, dumpVal]; decide
  | bool b => cases b <;> (rw [jsize, dumpVal]; decide)
  | int n =>
      rw [jsize, dumpVal, intChars]
      have hd : 1 ≤ (natDigits n.natAbs).length := by
        cases hnd : natDigits n.natAbs with
        | nil => exact absurd hnd (natDigits_ne_nil n.natAbs)
        | cons c t => simp
      split
      · simp only [List.length_cons]
        omega
      · exact hd
  | str s =>
      rw [jsize, dumpVal, dumpString]
      simp
  | arr xs =>
      rw [jsize, dumpVal]
      have := jsizeList_le_dump xs
      simp only [List.length_cons, List.length_append, List.length_singleton]
      omega
  | obj fs =>
      rw [jsize, dumpVal]
      have := jsizeFields_le_dump fs
      simp only [List.length_cons, List.length_append, List.length_singleton]
      omega

theorem jsizeList_le_dump (xs : List JVal) :
    jsizeList xs ≤ (dumpArr xs).length + 1 := by
  cases xs with
  | nil => rw [jsizeList, dumpArr]; simp
  | cons x t =>
      cases t with
      | nil =>
          rw [jsizeList, jsizeList, dumpArr]
          have := jsize_le_dump x
          omega
      | cons y t2 =>
          rw [jsizeList, dumpArr]
          have h1 := jsize_le_dump x
          have h2 := jsizeList_le_dump (y :: t2)
          simp only [List.length_append, List.length_cons]
          omega

theorem jsizeFields_le_dump (fs : List (String × JVal)) :
    jsizeFields fs ≤ (dumpObj fs).length + 1 := by
  cases fs with
  | nil => rw [jsizeFields, dumpObj]; simp
  | cons kv t =>
      cases t with
      | nil =>
          rw [jsizeFields, jsizeFields, dumpObj]
          have := jsize_le_dump kv.2
          simp only [List.length_append, List.length_cons]
          omega
      | cons kv2 t2 =>
          rw [jsizeFields, dumpObj]
          have h1 := jsize_le_dump kv.2
          have h2 := jsizeFields_le_dump (kv2 :: t2)
          simp only [List.length_append, List.length_cons]
          omega
end


/-! ### Step equations for the value parser -/

theorem parseVal_cons (fuel : Nat) (c : Char) (rest : List Char) :
    parseVal (fuel + 1) (c :: rest) =
      (if c = 'n' then
            match rest with
            | 'u' :: 'l' :: 'l' :: rest2 => some (.null, rest2)
            | _ => none
          else if c = 't' then
            match rest with
            | 'r' :: 'u' :: 'e' :: rest2 => some (.bool true, rest2)
            | _ => none
          else if c = 'f' then
            match rest with
            | 'a' :: 'l' :: 's' :: 'e' :: rest2 => some (.bool false, rest2)
            | _ => none
          else if c = '"' then
            match parseQuoted (rest.length + 1) rest [] with
            | some (s, rest2) => some (.str s, rest2)
            | none => none
          else if c = '-' then
            match digitSpan rest with
            | ([], _) => none
            | (ds, rest2) => some (.int (-(digitsVal ds : Int)), rest2)
          else if c = '[' then
            match dropWs rest with
            | [] => none
            | c2 :: rest2 =>
                if c2 = ']' then some (.arr [], rest2)
                else
                  match parseItems fuel (c2 :: rest2) with
                  | some (xs, rest3) => some (.arr xs, rest3)
                  | none => none
          else if c = lbrace then
            match dropWs rest with
            | [] => none
            | c2 :: rest2 =>
                if c2 = rbrace then some (.obj [], rest2)
                else
                  match parseFields fuel (c2 :: rest2) with
                  | some (fs, rest3) =>
                      some (.obj (fs.foldl (fun d kv => dset d kv.1 kv.2) []), rest3)
                  | none => none
          else if c.isDigit then
            match digitSpan (c :: rest) with
            | ([], _) => none
            | (ds, rest2) => some (.int (digitsVal ds : Int), rest2)
          else none) := rfl

theorem parseItems_succ (fuel : Nat) (cs : List Char) :
    parseItems (fuel + 1) cs =
      (match parseVal fuel (dropWs cs) with
      | none => none
      | some (v, rest) =>
          match dropWs rest with
          | [] => none
          | c :: rest2 =>
              if c = ',' then
                match parseItems fuel rest2 with
                | some (vs, rest3) => some (v :: vs, rest3)
                | none => none
              else if c = ']' then some ([v], rest2)
              else none) := rfl

theorem parseFields_succ (fuel : Nat) (cs : List Char) :
    parseFields (fuel + 1) cs =
      (match dropWs cs with
      | [] => none
      | c :: rest =>
          if c = '"' then
            match parseQuoted (rest.length + 1) rest [] with
            | none => none
            | some (k, rest1) =>
                match dropWs rest1 with
                | [] => none
                | c2 :: rest2 =>
                    if c2 = ':' then
                      match parseVal fuel (dropWs rest2) with
                      | none => none
                      | some (v, rest3) =>
                          match dropWs rest3 with
                          | [] => none
                          | c3 :: rest4 =>
                              if c3 = ',' then
                                match parseFields fuel rest4 with
                                | some (fs, rest5) => some ((k, v) :: fs, rest5)
                                | none => none
                              else if c3 = rbrace then some ([(k, v)], rest4)
                              else none
                    else none
          else none) := rfl

theorem parseVal_null (fuel : Nat) (rest : List Char) :
    parseVal (fuel + 1) ('n' :: 'u' :: 'l' :: 'l' :: rest) = some (.null, rest) := rfl

theorem parseVal_true (fuel : Nat) (rest : List Char) :
    parseVal (fuel + 1) ('t' :: 'r' :: 'u' :: 'e' :: rest) = some (.bool true, rest) := rfl

theorem parseVal_false (fuel : Nat) (rest : List Char) :
    parseVal (fuel + 1) ('f' :: 'a' :: 'l' :: 's' :: 'e' :: rest)
      = some (.bool false, rest) := rfl

theorem parseVal_quote (fuel : Nat) (rest : List Char) :
    parseVal (fuel + 1) ('"' :: rest) =
      (match parseQuoted (rest.length + 1) rest [] with
      | some (s, rest2) => some (.str s, rest2)
      | none => none) := rfl

theorem parseVal_minus (fuel : Nat) (rest : List Char) :
    parseVal (fuel + 1) ('-' :: rest) =
      (match digitSpan rest with
      | ([], _) => none
      | (ds, rest2) => some (.int (-(digitsVal ds : Int)), rest2)) := rfl

theorem parseVal_lbracket (fuel : Nat) (rest : List Char) :
    parseVal (fuel + 1) ('[' :: rest) =
      (match dropWs rest with
      | [] => none
      | c2 :: rest2 =>
          if c2 = ']' then some (.arr [], rest2)
          else
            match parseItems fuel (c2 :: rest2) with
            | some (xs, rest3) => some (.arr xs, rest3)
            | none => none) := rfl

theorem parseVal_lbrace (fuel : Nat) (rest : List Char) :
    parseVal (fuel + 1) (lbrace :: rest) =
      (match dropWs rest with
      | [] => none
      | c2 :: rest2 =>
          if c2 = rbrace then some (.obj [], rest2)
          else
            match parseFields fuel (c2 :: rest2) with
            | some (fs, rest3) =>
                some (.obj (fs.foldl (fun d kv => dset d kv.1 kv.2) []), rest3)
            | none => none) := rfl

theorem parseVal_digit (fuel : Nat) (c : Char) (rest : List Char)
    (h : c.isDigit = true) :
    parseVal (fuel + 1) (c :: rest) =
      (match digitSpan (c :: rest) with
      | ([], _) => none
      | (ds, rest2) => some (.int (digitsVal ds : Int), rest2)) := by
  have hb := isDigit_toNat h
  rw [parseVal_cons]
  rw [if_neg (fun hc => by rw [hc] at hb; exact absurd hb (by decide)),
    if_neg (fun hc => by rw [hc] at hb; exact absurd hb (by decide)),
    if_neg (fun hc => by rw [hc] at hb; exact absurd hb (by decide)),
    if_neg (fun hc => by rw [hc] at hb; exact absurd hb (by decide)),
    if_neg (fun hc => by rw [hc] at hb; exact absurd hb (by decide)),
    if_neg (fun hc => by rw [hc] at hb; exact absurd hb (by decide)),
    if_neg (fun hc => by rw [hc] at hb; exact absurd hb (by decide)),
    if_pos h]


/-! ### The serializer inverts through the parser -/

theorem dumpArr_cons_ex (x : JVal) (t : List JVal) :
    ∃ A, dumpArr (x :: t) = dumpVal x ++ A := by
  cases t with
  | nil => exact ⟨[], by rw [dumpArr]; simp⟩
  | cons y t2 => exact ⟨_, by rw [dumpArr]⟩

theorem dumpObj_cons_ex (kv : String × JVal) (t : List (String × JVal)) :
    ∃ B, dumpObj (kv :: t) = '"' :: B := by
  obtain ⟨k, v⟩ := kv
  cases t with
  | nil =>
      rw [dumpObj, dumpString]
      exact ⟨_, by rw [List.cons_append]⟩
  | cons kv2 t2 =>
      rw [dumpObj, dumpString]
      exact ⟨_, by rw [List.cons_append, List.cons_append]⟩

theorem dropWs_dumpArr_cons (x : JVal) (t : List JVal) (r : List Char) :
    dropWs (dumpArr (x :: t) ++ r) = dumpArr (x :: t) ++ r := by
  obtain ⟨A, hA⟩ := dumpArr_cons_ex x t
  rw [hA, List.append_assoc, dropWs_dumpVal]

theorem dropWs_dumpObj_cons (kv : String × JVal) (t : List (String × JVal))
    (r : List Char) :
    dropWs (dumpObj (kv :: t) ++ r) = dumpObj (kv :: t) ++ r := by
  obtain ⟨B, hB⟩ := dumpObj_cons_ex kv t
  rw [hB, List.cons_append, dropWs_not_ws (by decide)]

mutual
theorem parseVal_dump (v : JVal) : ∀ (fuel : Nat) (rest : List Char),
    jwf v = true → numBoundary rest = true → jsize v ≤ fuel →
    parseVal fuel (dumpVal v ++ rest) = some (v, rest) := by
  cases v with
  | null =>
      intro fuel rest _ _ hsz
      rw [jsize] at hsz
      obtain ⟨f, rfl⟩ : ∃ f, fuel = f + 1 := ⟨fuel - 1, by omega⟩
      rw [dumpVal]
      simp only [List.cons_append, List.nil_append]
      exact parseVal_null f rest
  | bool b =>
      intro fuel rest _ _ hsz
      rw [jsize] at hsz
      obtain ⟨f, rfl⟩ : ∃ f, fuel = f + 1 := ⟨fuel - 1, by omega⟩
      cases b with
      | true =>
          rw [dumpVal]
          simp only [List.cons_append, List.nil_append]
          exact parseVal_true f rest
      | false =>
          rw [dumpVal]
          simp only [List.cons_append, List.nil_append]
          exact parseVal_false f rest
  | int n =>
      intro fuel rest _ hnb hsz
      rw [jsize] at hsz
      obtain ⟨f, rfl⟩ : ∃ f, fuel = f + 1 := ⟨fuel - 1, by omega⟩
      rw [dumpVal, intChars]
      split
      · rename_i hneg
        simp only [List.cons_append]
        rw [parseVal_minus f, digitSpan_run (natDigits n.natAbs)
          (natDigits_all_digit n.natAbs) rest hnb]
        obtain ⟨c, tl, hct, _⟩ := natDigits_head n.natAbs
        rw [hct]
        show some (JVal.int (-(digitsVal (c :: tl) : Int)), rest)
          = some (JVal.int n, rest)
        rw [← hct, digitsVal_natDigits]
        have hn : -((n.natAbs : Nat) : Int) = n := by omega
        rw [hn]
      · rename_i hpos
        obtain ⟨c, tl, hct, hdig⟩ := natDigits_head n.natAbs
        rw [hct, List.cons_append, parseVal_digit f c (tl ++ rest) hdig,
          ← List.cons_append, ← hct,
          digitSpan_run (natDigits n.natAbs) (natDigits_all_digit n.natAbs) rest hnb,
          hct]
        show some (JVal.int ((digitsVal (c :: tl) : Nat) : Int), rest)
          = some (JVal.int n, rest)
        rw [← hct, digitsVal_natDigits]
        have hn : ((n.natAbs : Nat) : Int) = n := by omega
        rw [hn]
  | str s =>
      intro fuel rest _ _ hsz
      rw [jsize] at hsz
      obtain ⟨f, rfl⟩ : ∃ f, fuel = f + 1 := ⟨fuel - 1, by omega⟩
      rw [dumpVal, dumpString]
      simp only [List.cons_append, List.append_assoc, List.singleton_append,
        List.nil_append]
      rw [parseVal_quote,
        parseQuoted_dumpString_le s rest _ (by
          rw [List.length_append, List.length_cons]
          have := escapeString_length_ge s
          omega)]
  | arr xs =>
      intro fuel rest hwf _ hsz
      rw [jsize] at hsz
      obtain ⟨f, rfl⟩ : ∃ f, fuel = f + 1 := ⟨fuel - 1, by omega⟩
      rw [jwf] at hwf
      rw [dumpVal]
      simp only [List.cons_append, List.append_assoc, List.singleton_append,
        List.nil_append]
      rw [parseVal_lbracket]
      cases xs with
      | nil =>
          rw [dumpArr]
          simp only [List.nil_append]
          rw [dropWs_not_ws (by decide)]
          rfl
      | cons x t =>
          obtain ⟨A, hA⟩ := dumpArr_cons_ex x t
          obtain ⟨c, cs, hd, hws, hbr⟩ := dumpVal_head x
          rw [hA, hd, List.cons_append, List.cons_append,
            dropWs_not_ws hws]
          show (if c = ']' then some (JVal.arr [], cs ++ A ++ ']' :: rest)
            else
              match parseItems f (c :: (cs ++ A ++ ']' :: rest)) with
              | some (xs2, rest3) => some (JVal.arr xs2, rest3)
              | none => none) = some (JVal.arr (x :: t), rest)
          rw [if_neg hbr,
            parseItems_dump (x :: t) f (c :: (cs ++ A ++ ']' :: rest)) rest
              (by simp) hwf (by omega)
              (by
                rw [dropWs_not_ws hws, hA, hd, List.cons_append,
                  List.cons_append])]
  | obj fs =>
      intro fuel rest hwf _ hsz
      rw [jsize] at hsz
      obtain ⟨f, rfl⟩ : ∃ f, fuel = f + 1 := ⟨fuel - 1, by omega⟩
      rw [jwf, Bool.and_eq_true] at hwf
      rw [dumpVal]
      simp only [List.cons_append, List.append_assoc, List.singleton_append,
        List.nil_append]
      rw [parseVal_lbrace]
      cases fs with
      | nil =>
          rw [dumpObj]
          simp only [List.nil_append]
          rw [dropWs_not_ws (by decide)]
          rfl
      | cons kv t =>
          obtain ⟨B, hB⟩ := dumpObj_cons_ex kv t
          rw [hB, List.cons_append, dropWs_not_ws (by decide)]
          show (if ('"' : Char) = rbrace then
              some (JVal.obj [], B ++ rbrace :: rest)
            else
              match parseFields f ('"' :: (B ++ rbrace :: rest)) with
              | some (fs2, rest3) =>
                  some (JVal.obj (fs2.foldl (fun d kv => dset d kv.1 kv.2) []), rest3)
              | none => none) = some (JVal.obj (kv :: t), rest)
          rw [if_neg (by decide),
            parseFields_dump (kv :: t) f ('"' :: (B ++ rbrace :: rest)) rest
              (by simp) hwf.2 (by omega)
              (by rw [dropWs_not_ws (by decide), ← List.cons_append, ← hB])]
          show some (JVal.obj ((kv :: t).foldl (fun d kv => dset d kv.1 kv.2) []),
            rest) = some (JVal.obj (kv :: t), rest)
          rw [foldl_dset_nodup (kv :: t) hwf.1]

theorem parseItems_dump (xs : List JVal) : ∀ (fuel : Nat) (cs rest : List Char),
    xs ≠ [] → jwfList xs = true → jsizeList xs ≤ fuel →
    dropWs cs = dumpArr xs ++ ']' :: rest →
    parseItems fuel cs = some (xs, rest) := by
  cases xs with
  | nil =>
      intro fuel cs rest hne
      exact absurd rfl hne
  | cons x t =>
      intro fuel cs rest _ hwf hsz hdrop
      rw [jsizeList] at hsz
      obtain ⟨f, rfl⟩ : ∃ f, fuel = f + 1 := ⟨fuel - 1, by omega⟩
      rw [jwfList, Bool.and_eq_true] at hwf
      cases t with
      | nil =>
          rw [dumpArr] at hdrop
          rw [parseItems_succ, hdrop,
            parseVal_dump x f (']' :: rest) hwf.1 (by rw [numBoundary]; decide)
              (by omega)]
          show (match dropWs (']' :: rest) with
            | [] => none
            | c :: rest2 =>
                if c = ',' then
                  match parseItems f rest2 with
                  | some (vs, rest3) => some (x :: vs, rest3)
                  | none => none
                else if c = ']' then some ([x], rest2)
                else none) = some ([x], rest)
          rw [dropWs_not_ws (by decide)]
          rfl
      | cons y t2 =>
          rw [dumpArr, List.append_assoc, List.cons_append, List.cons_append]
            at hdrop
          rw [parseItems_succ, hdrop,
            parseVal_dump x f (',' :: ' ' :: (dumpArr (y :: t2) ++ ']' :: rest))
              hwf.1 (by rw [numBoundary]; decide) (by omega)]
          show (match dropWs (',' :: ' ' :: (dumpArr (y :: t2) ++ ']' :: rest)) with
            | [] => none
            | c :: rest2 =>
                if c = ',' then
                  match parseItems f rest2 with
                  | some (vs, rest3) => some (x :: vs, rest3)
                  | none => none
                else if c = ']' then some ([x], rest2)
                else none) = some (x :: y :: t2, rest)
          rw [dropWs_not_ws (by decide)]
          show (match parseItems f (' ' :: (dumpArr (y :: t2) ++ ']' :: rest)) with
            | some (vs, rest3) => some (x :: vs, rest3)
            | none => none) = some (x :: y :: t2, rest)
          rw [parseItems_dump (y :: t2) f
            (' ' :: (dumpArr (y :: t2) ++ ']' :: rest)) rest
            (by simp) hwf.2 (by omega)
            (by rw [dropWs_space, dropWs_dumpArr_cons])]

theorem parseFields_dump (fs : List (String × JVal)) :
    ∀ (fuel : Nat) (cs rest : List Char),
    fs ≠ [] → jwfFields fs = true → jsizeFields fs ≤ fuel →
    dropWs cs = dumpObj fs ++ rbrace :: rest →
    parseFields fuel cs = some (fs, rest) := by
  cases fs with
  | nil =>
      intro fuel cs rest hne
      exact absurd rfl hne
  | cons kv t =>
      intro fuel cs rest _ hwf hsz hdrop
      obtain ⟨k, v⟩ := kv
      rw [jsizeFields] at hsz
      obtain ⟨f, rfl⟩ : ∃ f, fuel = f + 1 := ⟨fuel - 1, by omega⟩
      rw [jwfFields, Bool.and_eq_true] at hwf
      cases t with
      | nil =>
          rw [dumpObj, dumpString] at hdrop
          simp only [List.cons_append, List.append_assoc, List.singleton_append,
            List.nil_append] at hdrop
          rw [parseFields_succ, hdrop]
          show (match parseQuoted
              ((escapeString k ++ '"' :: ':' :: ' ' ::
                (dumpVal v ++ rbrace :: rest)).length + 1)
              (escapeString k ++ '"' :: ':' :: ' ' ::
                (dumpVal v ++ rbrace :: rest)) [] with
            | none => none
            | some (k2, rest1) =>
                match dropWs rest1 with
                | [] => none
                | c2 :: rest2 =>
                    if c2 = ':' then
                      match parseVal f (dropWs rest2) with
                      | none => none
                      | some (v2, rest3) =>
                          match dropWs rest3 with
                          | [] => none
                          | c3 :: rest4 =>
                              if c3 = ',' then
                                match parseFields f rest4 with
                                | some (fs2, rest5) => some ((k2, v2) :: fs2, rest5)
                                | none => none
                              else if c3 = rbrace then some ([(k2, v2)], rest4)
                              else none
                    else none) = some ([(k, v)], rest)
          rw [parseQuoted_dumpString_le k
              (':' :: ' ' :: (dumpVal v ++ rbrace :: rest)) _
              (by
                rw [List.length_append, List.length_cons]
                have := escapeString_length_ge k
                omega)]
          show (match dropWs (':' :: ' ' :: (dumpVal v ++ rbrace :: rest)) with
            | [] => none
            | c2 :: rest2 =>
                if c2 = ':' then
                  match parseVal f (dropWs rest2) with
                  | none => none
                  | some (v2, rest3) =>
                      match dropWs rest3 with
                      | [] => none
                      | c3 :: rest4 =>
                          if c3 = ',' then
                            match parseFields f rest4 with
                            | some (fs2, rest5) => some ((k, v2) :: fs2, rest5)
                            | none => none
                          else if c3 = rbrace then some ([(k, v2)], rest4)
                          else none
                else none) = some ([(k, v)], rest)
          rw [dropWs_not_ws (by decide)]
          show (match parseVal f (dropWs (' ' :: (dumpVal v ++ rbrace :: rest))) with
            | none => none
            | some (v2, rest3) =>
                match dropWs rest3 with
                | [] => none
                | c3 :: rest4 =>
                    if c3 = ',' then
                      match parseFields f rest4 with
                      | some (fs2, rest5) => some ((k, v2) :: fs2, rest5)
                      | none => none
                    else if c3 = rbrace then some ([(k, v2)], rest4)
                    else none) = some ([(k, v)], rest)
          rw [dropWs_space, dropWs_dumpVal,
            parseVal_dump v f (rbrace :: rest) hwf.1
              (by rw [numBoundary]; decide) (by omega)]
          show (match dropWs (rbrace :: rest) with
            | [] => none
            | c3 :: rest4 =>
                if c3 = ',' then
                  match parseFields f rest4 with
                  | some (fs2, rest5) => some ((k, v) :: fs2, rest5)
                  | none => none
                else if c3 = rbrace then some ([(k, v)], rest4)
                else none) = some ([(k, v)], rest)
          rw [dropWs_not_ws (by decide)]
          rfl
      | cons kv2 t2 =>
          rw [dumpObj, dumpString] at hdrop
          simp only [List.cons_append, List.append_assoc, List.singleton_append,
            List.nil_append] at hdrop
          rw [parseFields_succ, hdrop]
          show (match parseQuoted
              ((escapeString k ++ '"' :: ':' :: ' ' ::
                (dumpVal v ++ ',' :: ' ' ::
                  (dumpObj (kv2 :: t2) ++ rbrace :: rest))).length + 1)
              (escapeString k ++ '"' :: ':' :: ' ' ::
                (dumpVal v ++ ',' :: ' ' ::
                  (dumpObj (kv2 :: t2) ++ rbrace :: rest))) [] with
            | none => none
            | some (k2, rest1) =>
                match dropWs rest1 with
                | [] => none
                | c2 :: rest2 =>
                    if c2 = ':' then
                      match parseVal f (dropWs rest2) with
                      | none => none
                      | some (v2, rest3) =>
                          match dropWs rest3 with
                          | [] => none
                          | c3 :: rest4 =>
                              if c3 = ',' then
                                match parseFields f rest4 with
                                | some (fs2, rest5) => some ((k2, v2) :: fs2, rest5)
                                | none => none
                              else if c3 = rbrace then some ([(k2, v2)], rest4)
                              else none
                    else none) = some ((k, v) :: kv2 :: t2, rest)
          rw [parseQuoted_dumpString_le k
              (':' :: ' ' :: (dumpVal v ++ ',' :: ' ' ::
                (dumpObj (kv2 :: t2) ++ rbrace :: rest))) _
              (by
                rw [List.length_append, List.length_cons]
                have := escapeString_length_ge k
                omega)]
          show (match dropWs (':' :: ' ' :: (dumpVal v ++ ',' :: ' ' ::
              (dumpObj (kv2 :: t2) ++ rbrace :: rest))) with
            | [] => none
            | c2 :: rest2 =>
                if c2 = ':' then
                  match parseVal f (dropWs rest2) with
                  | none => none
                  | some (v2, rest3) =>
                      match dropWs rest3 with
                      | [] => none
                      | c3 :: rest4 =>
                          if c3 = ',' then
                            match parseFields f rest4 with
                            | some (fs2, rest5) => some ((k, v2) :: fs2, rest5)
                            | none => none
                          else if c3 = rbrace then some ([(k, v2)], rest4)
                          else none
                else none) = some ((k, v) :: kv2 :: t2, rest)
          rw [dropWs_not_ws (by decide)]
          show (match parseVal f (dropWs (' ' :: (dumpVal v ++ ',' :: ' ' ::
              (dumpObj (kv2 :: t2) ++ rbrace :: rest)))) with
            | none => none
            | some (v2, rest3) =>
                match dropWs rest3 with
                | [] => none
                | c3 :: rest4 =>
                    if c3 = ',' then
                      match parseFields f rest4 with
                      | some (fs2, rest5) => some ((k, v2) :: fs2, rest5)
                      | none => none
                    else if c3 = rbrace then some ([(k, v2)], rest4)
                    else none) = some ((k, v) :: kv2 :: t2, rest)
          rw [dropWs_space, dropWs_dumpVal,
            parseVal_dump v f
              (',' :: ' ' :: (dumpObj (kv2 :: t2) ++ rbrace :: rest)) hwf.1
              (by rw [numBoundary]; decide) (by omega)]
          show (match dropWs (',' :: ' ' ::
              (dumpObj (kv2 :: t2) ++ rbrace :: rest)) with
            | [] => none
            | c3 :: rest4 =>
                if c3 = ',' then
                  match parseFields f rest4 with
                  | some (fs2, rest5) => some ((k, v) :: fs2, rest5)
                  | none => none
                else if c3 = rbrace then some ([(k, v)], rest4)
                else none) = some ((k, v) :: kv2 :: t2, rest)
          rw [dropWs_not_ws (by decide)]
          show (match parseFields f
              (' ' :: (dumpObj (kv2 :: t2) ++ rbrace :: rest)) with
            | some (fs2, rest5) => some ((k, v) :: fs2, rest5)
            | none => none) = some ((k, v) :: kv2 :: t2, rest)
          rw [parseFields_dump (kv2 :: t2) f
            (' ' :: (dumpObj (kv2 :: t2) ++ rbrace :: rest)) rest
            (by simp) hwf.2 (by omega)
            (by rw [dropWs_space, dropWs_dumpObj_cons])]
end


/-! ### `json.loads` inverts `json.dumps`, and the store round trip (C4) -/

theorem loads_dump (v : JVal) (h : jwf v = true) : loads (dumpVal v) = some v := by
  rw [loads]
  obtain ⟨c, cs, hd, hws, _⟩ := dumpVal_head v
  have hp := parseVal_dump v ((dumpVal v).length + 1) [] h rfl
    (by
      have := jsize_le_dump v
      omega)
  rw [List.append_nil] at hp
  rw [hd, dropWs_not_ws hws, ← hd, hp]
  rfl

/-- C4: uploading a non-empty list of well-formed comment dicts to the store
and reading them back under the same `video_id` returns the same records with
the same field values: `retrieve_comments_from_s3` after
`upload_comments_to_s3` is the identity on the serialized collection. -/
theorem C4_store_round_trip (store : Store) (comments : List Dict)
    (video_id : String) (hne : comments ≠ [])
    (hwf : ∀ c ∈ comments, jwf (JVal.obj c) = true) :
    retrieve_comments_from_s3 (upload_comments_to_s3 store comments video_id)
      video_id = Except.ok (comments.map JVal.obj) := by
  rw [upload_comments_to_s3, retrieve_comments_from_s3, storeGet_storePut]
  show exceptMap (fun line =>
      match loads line with
      | some v => Except.ok v
      | none => Except.error "JSONDecodeError")
    (splitNl (joinNl (comments.map (fun c => dumpVal (JVal.obj c)))))
    = Except.ok (comments.map JVal.obj)
  rw [splitNl_joinNl _ (fun hmap => hne (by simpa using hmap))
    (fun l hl => by
      obtain ⟨c, _, rfl⟩ := List.mem_map.mp hl
      exact dumpVal_no_nl (JVal.obj c))]
  exact exceptMap_map_ok _ _ _ comments (fun c hc => by
    rw [loads_dump (JVal.obj c) (hwf c hc)])

/-- Witness for C4 at a concrete store, comment list and video id. -/
theorem C4_store_round_trip_witness :
    ([[(("text_display" : String), JVal.str "bonjour")]] : List Dict) ≠ [] ∧
    retrieve_comments_from_s3
      (upload_comments_to_s3 []
        [[("text_display", JVal.str "bonjour")]] "vid") "vid"
      = Except.ok ([[(("text_display" : String), JVal.str "bonjour")]].map
          JVal.obj) :=
  ⟨List.cons_ne_nil _ _,
    C4_store_round_trip [] [[("text_display", JVal.str "bonjour")]] "vid"
      (List.cons_ne_nil _ _)
      (by
        intro c hc
        rw [List.mem_singleton] at hc
        subst hc
        rfl)⟩

end YCA
